import Mathlib

/-!
# OpenGarage firmware: range sampler, option store and event log

A shallow embedding of `src/OpenGarage/OpenGarage.cpp`.

* Machine integers are natural numbers; `uint32_t` arithmetic is reduced
  modulo `2 ^ 32` where it can wrap.
* C arrays are lists; an access outside the array makes the embedded function
  return `none`.
* Flash files are lists of bytes (`Nat`) or characters.
-/

namespace OpenGarage

/-! ## Ultrasonic distance sensor -/

/-- The buffer depth, `#define KAVG 7`. -/
def KAVG : Nat := 7

/-- The largest elapsed time stored, `26233L` in `ud_isr`. -/
def UD_CLAMP : Nat := 26233

/-- The file-scope variables of the distance sensor. -/
structure UdState where
  ud_start : Nat
  ud_i : Nat
  fullbuffer : Bool
  ud_buffer : List Nat
  triggered : Bool
deriving DecidableEq, Repr

/-- The static initialisers: `ud_start = 0`, `ud_i = 0`, `fullbuffer = false`,
a zero-initialised `ud_buffer[KAVG]`, `triggered = false`. -/
def UdState.init : UdState :=
  { ud_start := 0, ud_i := 0, fullbuffer := false,
    ud_buffer := List.replicate KAVG 0, triggered := false }

/-- The function `ud_start_trigger`: the pulse on `PIN_TRIG` is not part of the
state, the assignment `triggered = true` is. -/
def ud_start_trigger (s : UdState) : UdState :=
  { s with triggered := true }

/-- Unsigned 32-bit subtraction `a - b`. -/
def sub32 (a b : Nat) : Nat := (a % 2 ^ 32 + 2 ^ 32 - b % 2 ^ 32) % 2 ^ 32

/-- The interrupt handler `ud_isr`. `echo` is `digitalRead(PIN_ECHO) == HIGH`,
`now` is the value of `micros()`. The result is `none` when `ud_buffer[ud_i]`
is outside the array. -/
def ud_isr (echo : Bool) (now : Nat) (s : UdState) : Option UdState :=
  if !s.triggered then some s
  else if echo then some { s with ud_start := now % 2 ^ 32 }
  else
    if s.ud_i < s.ud_buffer.length then
      let elapsed := sub32 now s.ud_start
      let stored := if elapsed > UD_CLAMP then UD_CLAMP else elapsed
      let i := (s.ud_i + 1) % KAVG
      some { s with
        triggered := false
        ud_buffer := s.ud_buffer.set s.ud_i stored
        ud_i := i
        fullbuffer := if i = 0 then true else s.fullbuffer }
    else none

/-- The inner `while (in > 0 && buf[in - 1] > temp)` loop of `read_distance`,
by recursion on `in`; it returns the buffer and the final `in`. -/
def sort_inner (temp : Nat) : Nat → List Nat → Option (List Nat × Nat)
  | 0, buf => some (buf, 0)
  | n + 1, buf =>
    match buf[n]? with
    | none => none
    | some prev =>
      if prev > temp then
        if n + 1 < buf.length then sort_inner temp n (buf.set (n + 1) prev) else none
      else some (buf, n + 1)

/-- One round of the outer `for` loop of `read_distance` for a given `out`. -/
def sort_round (out : Nat) (buf : List Nat) : Option (List Nat) :=
  match buf[out]? with
  | none => none
  | some temp =>
    match sort_inner temp out buf with
    | none => none
    | some (buf1, pos) => if pos < buf1.length then some (buf1.set pos temp) else none

/-- The loop `for (out = 1; out <= KAVG / 2; out++)`, with `todo` rounds left. -/
def sort_loop : Nat → Nat → List Nat → Option (List Nat)
  | 0, _, buf => some buf
  | todo + 1, out, buf =>
    match sort_round out buf with
    | none => none
    | some buf1 => sort_loop todo (out + 1) buf1

/-- What a call of `read_distance` yields: the returned `uint`, the raw sample
that was converted (none on the `: 0` branch), and whether interrupts are
enabled on return. -/
structure ReadResult where
  value : Nat
  raw : Option Nat
  interrupts : Bool
deriving DecidableEq, Repr

/-- The function `read_distance`. `conv x` stands for the floating point
conversion `(uint) (x * 0.01716f)`, which is kept abstract. The result is
`none` when an array access is out of bounds. `noInterrupts()` clears the
interrupt flag and `interrupts()` sets it. -/
def read_distance (conv : Nat → Nat) (s : UdState) : Option ReadResult :=
  -- noInterrupts();
  if !s.fullbuffer then
    if s.ud_i > 0 then
      match s.ud_buffer[s.ud_i - 1]? with
      | none => none
      | some x => some { value := conv x, raw := some x, interrupts := false }
    else some { value := 0, raw := none, interrupts := false }
  else
    -- for (i = 0; i < KAVG; i++) buf[i] = ud_buffer[i];
    if KAVG ≤ s.ud_buffer.length then
      let buf := s.ud_buffer.take KAVG
      -- interrupts();
      match sort_loop (KAVG / 2) 1 buf with
      | none => none
      | some sorted =>
        match sorted[KAVG / 2]? with
        | none => none
        | some x => some { value := conv x, raw := some x, interrupts := true }
    else none

/-- An event of the sampler: a trigger pulse, or an edge on the echo pin with
the level read and the value of `micros()`. -/
inductive UdEvent where
  | trigger
  | edge (echo : Bool) (now : Nat)
deriving DecidableEq, Repr

/-- One step of the sampler. -/
def ud_step (s : UdState) : UdEvent → Option UdState
  | .trigger => some (ud_start_trigger s)
  | .edge echo now => ud_isr echo now s

/-- Running a list of events, oldest first. -/
def ud_run : UdState → List UdEvent → Option UdState
  | s, [] => some s
  | s, e :: es =>
    match ud_step s e with
    | none => none
    | some s1 => ud_run s1 es

/-- The value a falling edge stores, if the event is a capture in state `s`. -/
def captured (s : UdState) : UdEvent → Option Nat
  | .trigger => none
  | .edge echo now =>
    if s.triggered && !echo then some (min (sub32 now s.ud_start) UD_CLAMP) else none

/-- The samples stored while running a list of events, oldest first. -/
def ud_samples : UdState → List UdEvent → List Nat
  | _, [] => []
  | s, e :: es =>
    match ud_step s e with
    | none => []
    | some s1 =>
      match captured s e with
      | none => ud_samples s1 es
      | some x => x :: ud_samples s1 es

/-- The exact median of a list: the element of rank `length / 2` of the sorted
list. -/
def median (l : List Nat) : Option Nat :=
  (l.insertionSort (· ≤ ·))[l.length / 2]?

/-- The state after capturing the given elapsed times one after the other, each
with its own trigger, rising edge at time `0` and falling edge. -/
def feed (samples : List Nat) : Option UdState :=
  ud_run UdState.init
    (samples.flatMap fun x => [UdEvent.trigger, UdEvent.edge true 0, UdEvent.edge false x])

/-! ## Event log

`MAX_LOG_RECORDS` and `LogStruct` are declared in headers; the capacity `N` and
the record size `S = sizeof(LogStruct)` are parameters, and a record is the
list of the `S` bytes of its object representation, which is all that
`write_log` and `read_log_next` look at. -/

/-- The bytes of a `uint` in memory (little endian, as on the ESP cores). -/
def le32 (n : Nat) : List Nat :=
  [n % 256, n / 256 % 256, n / 65536 % 256, n / 16777216 % 256]

/-- The value of a `uint` whose low bytes are `bs` and whose other bytes are 0. -/
def of_le : List Nat → Nat
  | [] => 0
  | b :: bs => b + 256 * of_le bs

/-- An open file: its content and the position of the handle. -/
structure File where
  content : List Nat
  pos : Nat
deriving DecidableEq, Repr

/-- Overwriting `bs` at offset `pos`; a gap between the end of the content and
`pos` reads as zero. -/
def writeAt (c : List Nat) (pos : Nat) (bs : List Nat) : List Nat :=
  c.take pos ++ List.replicate (pos - c.length) 0 ++ bs ++ c.drop (pos + bs.length)

/-- The call `file.write(buf, len)`. -/
def File.write (f : File) (bs : List Nat) : File :=
  { content := writeAt f.content f.pos bs, pos := f.pos + bs.length }

/-- The call `file.readBytes(buf, len)`: the bytes read, fewer than `len` when
the file ends first, and the advanced handle. -/
def File.readBytes (f : File) (len : Nat) : List Nat × File :=
  let bs := (f.content.drop f.pos).take len
  (bs, { f with pos := f.pos + bs.length })

/-- The call `file.seek(pos, SeekSet)`. -/
def File.seek (f : File) (pos : Nat) : File := { f with pos := pos }

/-- The loop `for (; next < MAX_LOG_RECORDS; next++) file.write(&l, sizeof(LogStruct))`
with `todo = MAX_LOG_RECORDS - next` rounds left; `l` is the zero-initialised
record. -/
def fill_log (S : Nat) : Nat → File → File
  | 0, f => f
  | todo + 1, f => fill_log S todo (f.write (List.replicate S 0))

/-- The function `write_log`. The log file is `none` when it does not exist and
otherwise its content; `data` is the object representation of the record.
Opening the file is taken to succeed. -/
def write_log (N S : Nat) (fs : Option (List Nat)) (data : List Nat) : Option (List Nat) :=
  let curr := 0
  match fs with
  | none =>
    let file : File := { content := [], pos := 0 }
    let next := curr + 1
    let file := file.write (le32 next)
    let file := file.write data
    let file := fill_log S (N - next) file
    some file.content
  | some c =>
    let file : File := { content := c, pos := 0 }
    let (hdr, file) := file.readBytes 4
    let curr := of_le hdr
    let next := (curr + 1) % 2 ^ 32 % N
    let file := file.seek 0
    let file := file.write (le32 next)
    let file := file.seek ((4 + curr * S) % 2 ^ 32)
    let file := file.write data
    some file.content

/-- Calling `write_log` with each record of a list in turn. -/
def write_logs (N S : Nat) : Option (List Nat) → List (List Nat) → Option (List Nat)
  | fs, [] => fs
  | fs, r :: rs => write_logs N S (write_log N S fs r) rs

/-- The function `read_log_start`: the returned flag and the new `log_file`
handle (`none` when it is not open). -/
def read_log_start (N : Nat) (fs : Option (List Nat)) (_log_file : Option File) :
    Bool × Option File :=
  -- if (log_file) log_file.close();
  match fs with
  | none => (false, none)
  | some c =>
    let file : File := { content := c, pos := 0 }
    let (hdr, file) := file.readBytes 4
    if hdr.length ≠ 4 then (false, some file)
    else (decide (of_le hdr < N), some file)

/-- The function `read_log_next`: the returned flag, the bytes copied into
`data`, and the handle. -/
def read_log_next (S : Nat) (log_file : Option File) : Bool × List Nat × Option File :=
  match log_file with
  | none => (false, [], none)
  | some file =>
    let (bs, file) := file.readBytes S
    (decide (bs.length = S), bs, some file)

/-- The header of a log file: the `uint` in its first four bytes. -/
def log_header (c : List Nat) : Nat := of_le (c.take 4)

/-- The bytes of slot `j` of a log file. -/
def log_slot (S : Nat) (c : List Nat) (j : Nat) : List Nat :=
  (c.drop (4 + j * S)).take S

/-- A record of size 12 with the given time stamp and zero in the other fields. -/
def stamp (t : Nat) : List Nat := le32 t ++ List.replicate 8 0

/-! ## Option store

An Arduino `String` and the content of the configuration file are lists of
characters. The constants of `defines.h` that occur in the option table are
the fields of `Defines`. -/

/-- The size of the option table. Modelled from the spec: `NUM_OPTIONS` is an
enumerator of a header that is not part of the sources; the specification calls
it the table size, and the table has 25 entries. -/
def NUM_OPTIONS : Nat := 25

/-- The index of the firmware version option. Modelled from the spec:
`OPTION_FWV` is an enumerator of a header that is not part of the sources; the
firmware version option `fwv` is the first entry of the table. -/
def OPTION_FWV : Nat := 0

/-- The constants of `defines.h` used by the option table. -/
structure Defines where
  OG_FWV : Nat
  OG_MNT_CEILING : Nat
  OG_ALM_5 : Nat
  OG_MOD_AP : Nat
  OG_AUTO_NONE : Nat
  OG_NOTIFY_DO_DC : Nat
  DEFAULT_DKEY : List Char
  DEFAULT_NAME : List Char

/-- One entry of the option table. -/
structure OptionStruct where
  name : List Char
  ival : Nat
  max : Nat
  sval : List Char
deriving DecidableEq, Repr

/-- The initialiser of `OpenGarage::options`; `OG_NOTIFY_DO_DC` stands for
`OG_NOTIFY_DO | OG_NOTIFY_DC`. -/
def options_default (d : Defines) : List OptionStruct :=
  [ ⟨"fwv".toList, d.OG_FWV, 255, []⟩,
    ⟨"mnt".toList, d.OG_MNT_CEILING, 3, []⟩,
    ⟨"dth".toList, 50, 65535, []⟩,
    ⟨"vth".toList, 150, 65535, []⟩,
    ⟨"riv".toList, 5, 300, []⟩,
    ⟨"alm".toList, d.OG_ALM_5, 2, []⟩,
    ⟨"htp".toList, 80, 65535, []⟩,
    ⟨"cdt".toList, 0xFF, 5000, []⟩,
    ⟨"mod".toList, d.OG_MOD_AP, 255, []⟩,
    ⟨"ati".toList, 30, 720, []⟩,
    ⟨"ato".toList, d.OG_AUTO_NONE, 255, []⟩,
    ⟨"atib".toList, 3, 24, []⟩,
    ⟨"atob".toList, d.OG_AUTO_NONE, 255, []⟩,
    ⟨"noto".toList, d.OG_NOTIFY_DO_DC, 255, []⟩,
    ⟨"usi".toList, 0, 1, []⟩,
    ⟨"ssid".toList, 0, 0, []⟩,
    ⟨"pass".toList, 0, 0, []⟩,
    ⟨"auth".toList, 0, 0, []⟩,
    ⟨"dkey".toList, 0, 0, d.DEFAULT_DKEY⟩,
    ⟨"name".toList, 0, 0, d.DEFAULT_NAME⟩,
    ⟨"iftt".toList, 0, 0, []⟩,
    ⟨"mqtt".toList, 0, 0, "-.-.-.-".toList⟩,
    ⟨"dvip".toList, 0, 0, "-.-.-.-".toList⟩,
    ⟨"gwip".toList, 0, 0, "-.-.-.-".toList⟩,
    ⟨"subn".toList, 0, 0, "255.255.255.0".toList⟩ ]

/-- The loop of `find_option` from index `i` with `todo` rounds left. An index
outside the table matches no name. -/
def find_option_loop (options : List OptionStruct) (name : List Char) : Nat → Nat → Int
  | 0, _ => -1
  | todo + 1, i =>
    if (options[i]?).map (·.name) = some name then (i : Int)
    else find_option_loop options name todo (i + 1)

/-- The function `find_option`. -/
def find_option (options : List OptionStruct) (name : List Char) : Int :=
  find_option_loop options name NUM_OPTIONS 0

/-- The method `Stream::readStringUntil`: the characters up to the terminator,
which is consumed, or up to the end of the file; and the rest of the file. -/
def readStringUntil (t : Char) : List Char → List Char × List Char
  | [] => ([], [])
  | c :: cs =>
    if c = t then ([], cs)
    else ((c :: (readStringUntil t cs).1), (readStringUntil t cs).2)

/-- The C function `isspace`: blank, and the characters 9 to 13. -/
def isspace (c : Char) : Bool := c.toNat = 32 || (9 ≤ c.toNat && c.toNat ≤ 13)

/-- The method `String::trim`. -/
def trim (s : List Char) : List Char :=
  (((s.dropWhile isspace).reverse).dropWhile isspace).reverse

/-- The C function `isdigit`. -/
def isdigit (c : Char) : Bool := 48 ≤ c.toNat && c.toNat ≤ 57

/-- The digits loop of `atol`, with the value read so far. -/
def atol_digits : List Char → Nat → Nat
  | [], acc => acc
  | c :: cs, acc => if isdigit c then atol_digits cs (acc * 10 + (c.toNat - 48)) else acc

/-- Saturation of a value to the range of a 32-bit `long`. -/
def clamp_long (v : Int) : Int :=
  if v < -(2 ^ 31) then -(2 ^ 31) else if v > 2 ^ 31 - 1 then 2 ^ 31 - 1 else v

/-- The method `String::toInt`, which is `atol`: leading white space, an
optional sign, then digits. -/
def toInt (s : List Char) : Int :=
  match s.dropWhile isspace with
  | [] => 0
  | c :: cs =>
    if c.toNat = 45 then clamp_long (-(atol_digits cs 0 : Int))
    else if c.toNat = 43 then clamp_long (atol_digits cs 0)
    else clamp_long (atol_digits (c :: cs) 0)

/-- The conversion `static_cast<byte>`. -/
def to_byte (v : Int) : Nat := (v % 256).toNat

/-- The digit loop of `Print::printNumber` in base 10, filling the buffer from
its end. -/
def printNumber_loop : Nat → Nat → List Char → List Char
  | 0, _, acc => acc
  | fuel + 1, n, acc =>
    let acc1 := Char.ofNat (48 + n % 10) :: acc
    if n / 10 = 0 then acc1 else printNumber_loop fuel (n / 10) acc1

/-- The method `Print::print(unsigned int)`: the decimal digits of a 32-bit
value, of which there are at most 10. -/
def printNumber (n : Nat) : List Char := printNumber_loop 10 (n % 2 ^ 32) []

/-- The line terminator written by `Print::println`. -/
def CRLF : List Char := [Char.ofNat 13, Char.ofNat 10]

/-- The body of the loop of `options_save` for one option. -/
def option_line (o : OptionStruct) : List Char :=
  o.name ++ ":".toList ++ (if o.max ≠ 0 then printNumber o.ival else o.sval) ++ CRLF

/-- The function `options_save`: the content of the configuration file it
writes. Opening the file is taken to succeed. -/
def options_save (options : List OptionStruct) : List Char :=
  (options.take NUM_OPTIONS).flatMap option_line

/-- Lines 217 to 223 of `options_load`: what one parsed `name:value` pair does
to the table. -/
def apply_option (options : List OptionStruct) (name sval : List Char) : List OptionStruct :=
  let idx := find_option options name
  if idx < 0 then options
  else
    match options[idx.toNat]? with
    | none => options
    | some o =>
      if o.max ≠ 0 then options.set idx.toNat { o with ival := to_byte (toInt sval) }
      else options.set idx.toNat { o with sval := sval }

/-- The loop `while (file.available())` of `options_load`; `nopts` is a `byte`.
Each round consumes at least one character, so `fuel` rounds suffice for a file
of `fuel` characters. -/
def options_load_loop : Nat → List Char → Nat → List OptionStruct → List OptionStruct
  | 0, _, _, options => options
  | fuel + 1, file, nopts, options =>
    if file.isEmpty then options
    else
      let name := (readStringUntil (Char.ofNat 58) file).1
      let file1 := (readStringUntil (Char.ofNat 58) file).2
      let sval := trim (readStringUntil (Char.ofNat 10) file1).1
      let file2 := (readStringUntil (Char.ofNat 10) file1).2
      let nopts1 := (nopts + 1) % 256
      if nopts1 > NUM_OPTIONS + 1 then options
      else options_load_loop fuel file2 nopts1 (apply_option options name sval)

/-- The function `options_load`; the configuration file is `none` when it does
not exist. -/
def options_load (fs : Option (List Char)) (options : List OptionStruct) : List OptionStruct :=
  match fs with
  | none => options
  | some file => options_load_loop file.length file 0 options

/-- The function `options_setup`: the configuration file and the table after
the call. -/
def options_setup (d : Defines) (fs : Option (List Char)) (options : List OptionStruct) :
    Option (List Char) × List OptionStruct :=
  match fs with
  | none => (some (options_save options), options)
  | some file =>
    let options1 := options_load (some file) options
    match options1[OPTION_FWV]? with
    | none => (some file, options1)
    | some o =>
      if o.ival ≠ d.OG_FWV then
        let options2 := options1.set OPTION_FWV { o with ival := d.OG_FWV }
        (some (options_save options2), options2)
      else (some file, options1)

/-- The names of the option table, in table order. -/
def option_names : List (List Char) :=
  ["fwv", "mnt", "dth", "vth", "riv", "alm", "htp", "cdt", "mod", "ati", "ato", "atib", "atob",
    "noto", "usi", "ssid", "pass", "auth", "dkey", "name", "iftt", "mqtt", "dvip", "gwip",
    "subn"].map String.toList

/-- The `max` column of the option table, in table order. -/
def option_maxes : List Nat :=
  [255, 3, 65535, 65535, 300, 2, 65535, 5000, 255, 720, 255, 24, 255, 255, 1,
    0, 0, 0, 0, 0, 0, 0, 0, 0, 0]

/-- A value that `options_load` reads back unchanged: no line feed, and no
white space at either end. -/
def clean_value (v : List Char) : Prop :=
  Char.ofNat 10 ∉ v ∧ v.head?.map isspace ≠ some true ∧ v.getLast?.map isspace ≠ some true

instance (v : List Char) : Decidable (clean_value v) := by
  unfold clean_value; infer_instance

/-- The text `options_save` writes after the colon for an option. -/
def option_value (o : OptionStruct) : List Char :=
  if o.max ≠ 0 then printNumber o.ival else o.sval

/-- An option whose line `options_load` parses back into its name and value. -/
def good_option (o : OptionStruct) : Prop :=
  Char.ofNat 58 ∉ o.name ∧ clean_value (option_value o)

/-- What a line written for option `o` does to the table entry `b` of the same
name: lines 219 to 223 of `options_load`. -/
def load_entry (b o : OptionStruct) : OptionStruct :=
  if b.max ≠ 0 then { b with ival := to_byte (toInt (option_value o)) }
  else { b with sval := option_value o }

/-- A build configuration used in examples. -/
def sample_defines : Defines :=
  { OG_FWV := 110, OG_MNT_CEILING := 0, OG_ALM_5 := 1, OG_MOD_AP := 169, OG_AUTO_NONE := 0,
    OG_NOTIFY_DO_DC := 3, DEFAULT_DKEY := "opendoor".toList,
    DEFAULT_NAME := "My OpenGarage".toList }

/-- The compiled table of `sample_defines` with the distance threshold `dth`
set to 300, which is within its bound 65535. -/
def table_dth_300 : List OptionStruct :=
  (options_default sample_defines).set 2
    { name := "dth".toList, ival := 300, max := 65535, sval := [] }

/-- The table `table_dth_300` as an older firmware, version 100, would hold it. -/
def table_fwv_100 : List OptionStruct :=
  table_dth_300.set 0 { name := "fwv".toList, ival := 100, max := 255, sval := [] }

/-- The bookkeeping invariant of the ring buffer: `hist` lists the samples
stored so far, oldest first. -/
def UdInv (s : UdState) (hist : List Nat) : Prop :=
  s.ud_buffer.length = KAVG ∧ s.ud_i = hist.length % KAVG ∧
  s.fullbuffer = decide (KAVG ≤ hist.length) ∧
  (∀ j, j < hist.length → hist.length ≤ j + KAVG → s.ud_buffer[j % KAVG]? = hist[j]?) ∧
  (∀ x ∈ s.ud_buffer, x ≤ UD_CLAMP)

/-- The bookkeeping invariant of the log file: `hist` lists the records
appended so far, oldest first. -/
def LogInv (N S : Nat) (fc : List Nat) (hist : List (List Nat)) : Prop :=
  fc.length = 4 + N * S ∧ log_header fc = hist.length % N ∧
  (∀ i, i < hist.length → hist.length ≤ i + N → hist[i]? = some (log_slot S fc (i % N))) ∧
  (∀ j, hist.length ≤ j → j < N → log_slot S fc j = List.replicate S 0)

/-! ## Log iteration, the tokenizer of `options_load` and text lines -/

/-- The `log_file` handle after `j` calls of `read_log_next`. -/
def read_log_skip (S : Nat) : Nat → Option File → Option File
  | 0, log_file => log_file
  | j + 1, log_file => read_log_skip S j (read_log_next S log_file).2.2

/-- A log file of capacity 3 and record size 12 whose header holds 7. -/
def log_header_7 : List Nat := le32 7 ++ stamp 10 ++ stamp 20 ++ stamp 30

/-- One round of the tokenizer of `options_load`: the name up to the colon, the
trimmed value up to the line feed, and the rest of the file. -/
def parse_pair (file : List Char) : List Char × List Char × List Char :=
  ((readStringUntil (Char.ofNat 58) file).1,
    trim (readStringUntil (Char.ofNat 10) (readStringUntil (Char.ofNat 58) file).2).1,
    (readStringUntil (Char.ofNat 10) (readStringUntil (Char.ofNat 58) file).2).2)

/-- The first `k` name and value pairs that the tokenizer of `options_load`
finds in a file. -/
def parsed_pairs : Nat → List Char → List (List Char × List Char)
  | 0, _ => []
  | k + 1, file =>
    if file.isEmpty then []
    else ((parse_pair file).1, (parse_pair file).2.1) :: parsed_pairs k (parse_pair file).2.2

/-- The part of a file that holds its first `k` parsed `name:value` lines. -/
def take_parsed : Nat → List Char → List Char
  | 0, _ => []
  | k + 1, file =>
    if file.isEmpty then []
    else file.take (file.length - (parse_pair file).2.2.length)
      ++ take_parsed k (parse_pair file).2.2

/-- The lines of a file, split at the line feeds. -/
def file_lines : List Char → List (List Char)
  | [] => [[]]
  | c :: cs =>
    if c = Char.ofNat 10 then [] :: file_lines cs
    else (c :: (file_lines cs).headD []) :: (file_lines cs).tail

/-- The keys of the lines of a file: for each line the text before its first
colon, or the whole line when it has no colon. -/
def line_keys (file : List Char) : List (List Char) :=
  (file_lines file).map (fun l => (readStringUntil (Char.ofNat 58) l).1)

/-- The first `k` text lines of a file, with their line feeds. -/
def take_lines : Nat → List Char → List Char
  | 0, _ => []
  | k + 1, file =>
    file.takeWhile (· ≠ Char.ofNat 10) ++
      (match file.dropWhile (· ≠ Char.ofNat 10) with
        | [] => []
        | c :: rest => c :: take_lines k rest)

/-- Whether each of the first `k` text lines of a file contains a colon. -/
def lines_have_colon : Nat → List Char → Bool
  | 0, _ => true
  | k + 1, file =>
    file.isEmpty ||
      (decide (Char.ofNat 58 ∈ file.takeWhile (· ≠ Char.ofNat 10)) &&
        (match file.dropWhile (· ≠ Char.ofNat 10) with
          | [] => true
          | _ :: rest => lines_have_colon k rest))

/-- A file of 27 text lines: a line without a colon, 25 lines for unknown
names, and a line that sets `dth`. -/
def file_27_lines : List Char :=
  "x".toList ++ [Char.ofNat 10] ++
    (List.replicate 25 ("b:1".toList ++ CRLF)).flatten ++ "dth:5".toList ++ CRLF

/-- The events that capture the given elapsed times one after the other: for
each a trigger, a rising edge at time 0 and a falling edge. -/
def feed_events (samples : List Nat) : List UdEvent :=
  samples.flatMap fun x => [UdEvent.trigger, UdEvent.edge true 0, UdEvent.edge false x]

/-- A file of 27 text lines that all have a colon: 26 lines for unknown names
and a line that sets `dth`. -/
def file_27_pairs : List Char :=
  (List.replicate 26 ("b:1".toList ++ CRLF)).flatten ++ "dth:5".toList ++ CRLF

/-! ## Checks on concrete inputs -/

example : file_lines ("ab:1".toList ++ CRLF ++ "c".toList ++ [Char.ofNat 10] ++ "d:e".toList)
    = ["ab:1".toList ++ [Char.ofNat 13], "c".toList, "d:e".toList] := by decide
example : line_keys ("ab:1".toList ++ CRLF ++ "c".toList ++ [Char.ofNat 10] ++ "d:e".toList)
    = ["ab".toList, "c".toList, "d".toList] := by decide
example : parsed_pairs 5 ("ab:1".toList ++ CRLF ++ "c".toList ++ [Char.ofNat 10] ++ "d:e".toList)
    = [("ab".toList, "1".toList), ("c".toList ++ [Char.ofNat 10] ++ "d".toList, "e".toList)] := by
  decide
example : take_parsed 1 ("ab:1".toList ++ CRLF ++ "c".toList) = "ab:1".toList ++ CRLF := by
  decide
example : take_lines 1 ("ab:1".toList ++ CRLF ++ "c".toList) = "ab:1".toList ++ CRLF := by
  decide

set_option maxRecDepth 100000 in
example : (write_logs 5 12 none [stamp 10, stamp 20, stamp 30]).map
    (fun c => (log_header c, (List.range 5).map (log_slot 12 c)))
    = some (3, [stamp 10, stamp 20, stamp 30, stamp 0, stamp 0]) := by decide
set_option maxRecDepth 100000 in
example : (write_logs 3 12 none [stamp 10, stamp 20, stamp 30, stamp 40]).map
    (fun c => (log_header c, (List.range 3).map (log_slot 12 c)))
    = some (1, [stamp 40, stamp 20, stamp 30]) := by decide
example : find_option (options_default sample_defines) "subn".toList = 24 := by decide
example : find_option (options_default sample_defines) "FWV".toList = -1 := by decide
example : printNumber 65535 = "65535".toList := by decide
example : toInt "65535".toList = 65535 := by decide
set_option maxRecDepth 100000 in
example : options_load (some (options_save (options_default sample_defines)))
    (options_default sample_defines) = options_default sample_defines := by decide
example : (feed [5, 1, 9, 3, 7, 2, 8]).map (·.ud_buffer) = some [5, 1, 9, 3, 7, 2, 8] := by
  decide
example : median [5, 1, 9, 3, 7, 2, 8] = some 5 := by decide
example : ((feed [5, 1, 9, 3, 7, 2, 8]).bind (read_distance id)).map (·.value) = some 9 := by
  decide

/-! ## Lemmas and claims

### Lemmas about the sampler -/

theorem sub32_eq_int (a b : Nat) :
    sub32 a b = (((a : Int) - (b : Int)) % 2 ^ 32).toNat := by
  unfold sub32
  norm_num
  omega

theorem udInv_init : UdInv UdState.init [] := by
  refine ⟨rfl, rfl, rfl, ?_, ?_⟩
  · intro j hj; simp at hj
  · intro x hx
    simp [UdState.init] at hx
    simp [hx.2]

theorem udInv_step (s : UdState) (hist : List Nat) (e : UdEvent) (h : UdInv s hist) :
    ∃ s1, ud_step s e = some s1 ∧ UdInv s1 (hist ++ (captured s e).toList) := by
  obtain ⟨hlen, hi, hfull, hbuf, hcl⟩ := h
  cases e with
  | trigger =>
    exact ⟨_, rfl, by simpa [captured, ud_start_trigger, UdInv] using ⟨hlen, hi, hfull, hbuf, hcl⟩⟩
  | edge echo now =>
    by_cases ht : s.triggered = true
    · cases echo with
      | true =>
        refine ⟨_, by simp [ud_step, ud_isr, ht]; rfl, ?_⟩
        simpa [captured, UdInv] using ⟨hlen, hi, hfull, hbuf, hcl⟩
      | false =>
        have hlt : s.ud_i < s.ud_buffer.length := by
          rw [hlen, hi]; exact Nat.mod_lt _ (by decide)
        have hst : (if sub32 now s.ud_start > UD_CLAMP then UD_CLAMP else sub32 now s.ud_start)
            = min (sub32 now s.ud_start) UD_CLAMP := by
          split <;> omega
        refine ⟨_, by simp only [ud_step, ud_isr, ht, hlt]; simp; rfl, ?_⟩
        simp only [captured, ht, Bool.not_false, Bool.and_self, if_true, Option.toList_some]
        rw [hst]
        refine ⟨by simpa using hlen, ?_, ?_, ?_, ?_⟩
        · simp [hi, KAVG]
        · simp only [List.length_append, List.length_singleton]
          rw [hfull, hi]
          simp only [KAVG]
          by_cases h7 : (hist.length % 7 + 1) % 7 = 0
          · rw [decide_eq_true h7, decide_eq_true (show 7 ≤ hist.length + 1 by omega)]
            rfl
          · rw [decide_eq_false h7, Bool.false_or]
            by_cases h8 : 7 ≤ hist.length
            · rw [decide_eq_true h8, decide_eq_true (by omega)]
            · rw [decide_eq_false h8, decide_eq_false (by omega)]
        · intro j hj hj7
          simp only [List.length_append, List.length_singleton] at hj hj7
          by_cases hjn : j = hist.length
          · subst hjn
            simp [hi, hlen, KAVG, Nat.mod_lt]
          · have hjl : j < hist.length := by omega
            have hne : s.ud_i ≠ j % KAVG := by
              rw [hi]; simp only [KAVG] at *; omega
            simp only [List.getElem?_set_ne hne]
            rw [hbuf j hjl (by omega), List.getElem?_append_left hjl]
        · intro x hx
          rcases List.mem_or_eq_of_mem_set hx with hx | hx
          · exact hcl x hx
          · rw [hx]; exact Nat.min_le_right _ _
    · refine ⟨s, by simp [ud_step, ud_isr, ht], ?_⟩
      simpa [captured, ht, UdInv] using ⟨hlen, hi, hfull, hbuf, hcl⟩

theorem ud_samples_cons (s : UdState) (e : UdEvent) (es : List UdEvent) :
    ud_samples s (e :: es) =
      match ud_step s e with
      | none => []
      | some s1 => (captured s e).toList ++ ud_samples s1 es := by
  simp only [ud_samples]
  cases ud_step s e with
  | none => rfl
  | some s1 => cases captured s e <;> rfl

theorem udInv_run (evs : List UdEvent) (s : UdState) (hist : List Nat) (h : UdInv s hist) :
    ∃ s1, ud_run s evs = some s1 ∧ UdInv s1 (hist ++ ud_samples s evs) := by
  induction evs generalizing s hist with
  | nil => exact ⟨s, rfl, by simpa [ud_samples] using h⟩
  | cons e es ih =>
    obtain ⟨s1, hs1, hinv⟩ := udInv_step s hist e h
    obtain ⟨s2, hs2, hinv2⟩ := ih s1 _ hinv
    refine ⟨s2, by simp [ud_run, hs1, hs2], ?_⟩
    rw [ud_samples_cons, hs1]
    simpa [List.append_assoc] using hinv2

theorem udInv_run_init (evs : List UdEvent) :
    ∃ s, ud_run UdState.init evs = some s ∧ UdInv s (ud_samples UdState.init evs) := by
  simpa using udInv_run evs UdState.init [] udInv_init

/-! ### Claims about the sampler -/

/-- C1, evaluated at the scenario of the specification: after the seven samples
5, 1, 9, 3, 7, 2, 8 were captured the buffer holds them in slots 0..6 and is
full, their exact median is 5, and `read_distance` converts 9 (the largest of
slots 0..3), not 5. -/
theorem read_distance_seven_samples_selects_9 :
    ∃ s, feed [5, 1, 9, 3, 7, 2, 8] = some s ∧
      s.ud_buffer = [5, 1, 9, 3, 7, 2, 8] ∧ s.fullbuffer = true ∧
      median s.ud_buffer = some 5 ∧
      ∀ conv, read_distance conv s
        = some { value := conv 9, raw := some 9, interrupts := true } :=
  ⟨_, rfl, by decide, by decide, by decide, fun _ => rfl⟩

/-- C8: a falling edge handled by `ud_isr` while a trigger is outstanding stores
`min ((now - ud_start) mod 2^32) 26233` at the cursor; and in every state
reached from the initial one the cursor is inside the buffer and every entry of
`ud_buffer` is at most 26233. -/
theorem ud_isr_stores_clamped (s : UdState) (now : Nat) (ht : s.triggered = true)
    (hi : s.ud_i < s.ud_buffer.length) :
    (∃ s1, ud_isr false now s = some s1 ∧
      s1.ud_buffer[s.ud_i]? = some (min ((((now : Int) - (s.ud_start : Int)) % 2 ^ 32).toNat) 26233)) ∧
    ∀ evs, ∃ r, ud_run UdState.init evs = some r ∧ r.ud_i < r.ud_buffer.length ∧
      ∀ x ∈ r.ud_buffer, x ≤ 26233 := by
  constructor
  · refine ⟨_, by simp only [ud_isr, ht, hi]; simp; rfl, ?_⟩
    rw [← sub32_eq_int]
    have hst : (if sub32 now s.ud_start > UD_CLAMP then UD_CLAMP else sub32 now s.ud_start)
        = min (sub32 now s.ud_start) 26233 := by
      simp only [UD_CLAMP]; split <;> omega
    simp [hst, hi]
  · intro evs
    obtain ⟨r, hr, hinv⟩ := udInv_run_init evs
    refine ⟨r, hr, ?_, hinv.2.2.2.2⟩
    rw [hinv.1, hinv.2.1]
    exact Nat.mod_lt _ (by decide)

/-- C8 at a concrete state: with a trigger outstanding since time 0, a falling
edge at time 30000 stores 26233 in slot 0. -/
theorem ud_isr_stores_clamped_witness :
    (∃ s1, ud_isr false 30000 (ud_start_trigger UdState.init) = some s1 ∧
      s1.ud_buffer[0]? = some 26233) ∧
    ∀ evs, ∃ r, ud_run UdState.init evs = some r ∧ r.ud_i < r.ud_buffer.length ∧
      ∀ x ∈ r.ud_buffer, x ≤ 26233 :=
  ud_isr_stores_clamped (ud_start_trigger UdState.init) 30000 rfl (by decide)

/-- C10: in the state reached by any list of events, `fullbuffer` is false
exactly when fewer than 7 samples were captured; in that case the cursor is the
number of samples, `read_distance` returns 0 without converting anything when
there is no sample, and otherwise converts the most recently captured sample,
which is `ud_buffer[ud_i - 1]`. -/
theorem read_distance_warm_up (evs : List UdEvent) :
    ∃ s, ud_run UdState.init evs = some s ∧
      (s.fullbuffer = false ↔ (ud_samples UdState.init evs).length < KAVG) ∧
      (s.fullbuffer = false →
        s.ud_i = (ud_samples UdState.init evs).length ∧
        (s.ud_i = 0 → ∀ conv, read_distance conv s
            = some { value := 0, raw := none, interrupts := false }) ∧
        (∀ x, (ud_samples UdState.init evs).getLast? = some x →
          s.ud_buffer[s.ud_i - 1]? = some x ∧
          ∀ conv, read_distance conv s
            = some { value := conv x, raw := some x, interrupts := false })) := by
  obtain ⟨s, hs, hlen, hi, hfull, hbuf, -⟩ := udInv_run_init evs
  generalize ud_samples UdState.init evs = hist at *
  have hiff : s.fullbuffer = false ↔ hist.length < KAVG := by
    rw [hfull]; simp
  refine ⟨s, hs, hiff, fun hf => ?_⟩
  have hlt := hiff.1 hf
  have hin : s.ud_i = hist.length := by rw [hi, Nat.mod_eq_of_lt hlt]
  refine ⟨hin, fun h0 conv => by simp [read_distance, hf, h0], fun x hx => ?_⟩
  have hne : hist ≠ [] := by rintro rfl; simp at hx
  have hpos : 0 < hist.length := List.length_pos.2 hne
  have hget : s.ud_buffer[s.ud_i - 1]? = some x := by
    have := hbuf (hist.length - 1) (by omega) (by omega)
    rw [Nat.mod_eq_of_lt (by omega)] at this
    rw [hin, this, ← hx, List.getLast?_eq_getElem?]
  refine ⟨hget, fun conv => ?_⟩
  have hpos2 : s.ud_i > 0 := by omega
  simp [read_distance, hf, hpos2, hget]

/-- C10 on a run with one capture of 300 microseconds. -/
theorem read_distance_warm_up_witness :
    ∃ s, ud_run UdState.init [.trigger, .edge true 100, .edge false 400] = some s ∧
      s.fullbuffer = false ∧ s.ud_i = 1 ∧ s.ud_buffer[0]? = some 300 ∧
      ∀ conv, read_distance conv s
        = some { value := conv 300, raw := some 300, interrupts := false } := by
  obtain ⟨s, hs, hiff, h⟩ :=
    read_distance_warm_up [.trigger, .edge true 100, .edge false 400]
  have hsam : ud_samples UdState.init [.trigger, .edge true 100, .edge false 400] = [300] := by
    decide
  rw [hsam] at hiff h
  have hf := hiff.2 (by decide)
  obtain ⟨hi, -, hx⟩ := h hf
  have hi1 : s.ud_i = 1 := hi
  have := hx 300 rfl
  rw [hi1] at this
  exact ⟨s, hs, hf, hi1, this.1, this.2⟩

/-! ### Lemmas about the log file -/

theorem le32_length (n : Nat) : (le32 n).length = 4 := rfl

theorem of_le_le32 (n : Nat) (h : n < 2 ^ 32) : of_le (le32 n) = n := by
  simp only [le32, of_le]
  omega

theorem writeAt_length (fc : List Nat) (pos : Nat) (bs : List Nat) :
    (writeAt fc pos bs).length = max fc.length (pos + bs.length) := by
  simp only [writeAt, List.length_append, List.length_take, List.length_replicate,
    List.length_drop]
  omega

theorem getElem?_writeAt (fc : List Nat) (pos : Nat) (bs : List Nat) (p : Nat) :
    (writeAt fc pos bs)[p]? =
      if p < pos then (if p < fc.length then (fc[p]?) else some 0)
      else if p < pos + bs.length then (bs[p - pos]?) else (fc[p]?) := by
  unfold writeAt
  by_cases h1 : p < pos
  · rw [if_pos h1, List.append_assoc, List.append_assoc]
    by_cases h2 : p < fc.length
    · rw [if_pos h2, List.getElem?_append_left (by simp; omega), List.getElem?_take_of_lt h1]
    · rw [if_neg h2, List.getElem?_append_right (by simp; omega),
        List.getElem?_append_left (by simp; omega)]
      simp [List.getElem?_replicate]
      omega
  · rw [if_neg h1]
    have hl : (fc.take pos ++ List.replicate (pos - fc.length) 0).length = pos := by
      simp; omega
    by_cases h2 : p < pos + bs.length
    · rw [if_pos h2, List.append_assoc _ bs, List.getElem?_append_right (by omega), hl,
        List.getElem?_append_left (by omega)]
    · rw [if_neg h2, List.getElem?_append_right (by simp; omega)]
      simp only [List.length_append, hl, List.getElem?_drop]
      congr 1
      omega

theorem write_log_some (N S : Nat) (fc data : List Nat) :
    write_log N S (some fc) data =
      some (writeAt (writeAt fc 0 (le32 ((log_header fc + 1) % 2 ^ 32 % N)))
        ((4 + log_header fc * S) % 2 ^ 32) data) := by
  simp [write_log, File.readBytes, File.seek, File.write, log_header]

theorem getElem?_log_slot (S : Nat) (fc : List Nat) (j q : Nat) :
    (log_slot S fc j)[q]? = if q < S then (fc[4 + j * S + q]?) else none := by
  unfold log_slot
  split
  · rename_i h
    rw [List.getElem?_take_of_lt h, List.getElem?_drop]
  · rename_i h
    exact List.getElem?_eq_none (by simp; omega)

theorem log_header_of_head (fc : List Nat) (n : Nat) (hn : n < 2 ^ 32)
    (h : ∀ p, p < 4 → fc[p]? = (le32 n)[p]?) : log_header fc = n := by
  have : fc.take 4 = le32 n := by
    apply List.ext_getElem?
    intro p
    by_cases hp : p < 4
    · rw [List.getElem?_take_of_lt hp, h p hp]
    · rw [List.getElem?_eq_none (by simp; omega), List.getElem?_eq_none (by simp [le32]; omega)]
  rw [log_header, this, of_le_le32 n hn]

/-- The effect of `write_log` on a well-formed existing file, byte by byte. -/
theorem write_log_wf (N S : Nat) (fc data : List Nat) (hS : 0 < S)
    (hfit : 4 + N * S < 2 ^ 32) (hlen : fc.length = 4 + N * S)
    (hh : log_header fc < N) (hd : data.length = S) :
    ∃ fc1, write_log N S (some fc) data = some fc1 ∧ fc1.length = 4 + N * S ∧
      log_header fc1 = (log_header fc + 1) % N ∧
      ∀ p, 4 ≤ p → fc1[p]? =
        if 4 + log_header fc * S ≤ p ∧ p < 4 + log_header fc * S + S
        then (data[p - (4 + log_header fc * S)]?) else (fc[p]?) := by
  have hNS : N ≤ N * S := Nat.le_mul_of_pos_right N hS
  have hmul : (log_header fc + 1) * S ≤ N * S := Nat.mul_le_mul_right S hh
  rw [Nat.succ_mul] at hmul
  have hnext : (log_header fc + 1) % 2 ^ 32 % N = (log_header fc + 1) % N := by
    rw [Nat.mod_eq_of_lt (a := log_header fc + 1) (by omega)]
  have hoff : (4 + log_header fc * S) % 2 ^ 32 = 4 + log_header fc * S :=
    Nat.mod_eq_of_lt (by omega)
  have hnlt : (log_header fc + 1) % N < 2 ^ 32 :=
    lt_of_lt_of_le (Nat.mod_lt _ (by omega)) (by omega)
  refine ⟨_, write_log_some N S fc data, ?_, ?_, ?_⟩
  · rw [writeAt_length, writeAt_length, hoff, hnext, le32_length, hlen, hd]
    omega
  · apply log_header_of_head _ _ hnlt
    intro p hp
    rw [getElem?_writeAt, getElem?_writeAt, hoff, hnext, writeAt_length, le32_length, hlen]
    simp only [Nat.zero_add, Nat.not_lt_zero, if_false, Nat.sub_zero]
    rw [if_pos (by omega), if_pos (by omega), if_pos hp]
  · intro p hp
    rw [getElem?_writeAt, getElem?_writeAt, hoff, hnext, writeAt_length, le32_length, hlen]
    simp only [Nat.zero_add, Nat.not_lt_zero, if_false, Nat.sub_zero, hd]
    by_cases h1 : p < 4 + log_header fc * S
    · rw [if_pos h1, if_pos (by omega), if_neg (by omega), if_neg (by omega)]
    · rw [if_neg h1]
      by_cases h2 : p < 4 + log_header fc * S + S
      · rw [if_pos h2, if_pos ⟨by omega, h2⟩]
      · rw [if_neg h2, if_neg (by omega), if_neg (by omega)]

theorem log_slot_write_log_same (S : Nat) (fc fc1 data : List Nat) (h : Nat)
    (hd : data.length = S)
    (hb : ∀ p, 4 ≤ p → fc1[p]? =
        if 4 + h * S ≤ p ∧ p < 4 + h * S + S then (data[p - (4 + h * S)]?) else (fc[p]?)) :
    log_slot S fc1 h = data := by
  apply List.ext_getElem?
  intro q
  rw [getElem?_log_slot]
  by_cases hq : q < S
  · rw [if_pos hq, hb _ (by omega), if_pos ⟨by omega, by omega⟩]
    congr 1
    omega
  · rw [if_neg hq, List.getElem?_eq_none (by omega)]

theorem log_slot_write_log_other (S : Nat) (fc fc1 data : List Nat) (h j : Nat) (hj : j ≠ h)
    (hb : ∀ p, 4 ≤ p → fc1[p]? =
        if 4 + h * S ≤ p ∧ p < 4 + h * S + S then (data[p - (4 + h * S)]?) else (fc[p]?)) :
    log_slot S fc1 j = log_slot S fc j := by
  apply List.ext_getElem?
  intro q
  rw [getElem?_log_slot, getElem?_log_slot]
  by_cases hq : q < S
  · rw [if_pos hq, if_pos hq, hb _ (by omega), if_neg]
    rintro ⟨h1, h2⟩
    rcases Nat.lt_or_gt_of_ne hj with hlt | hgt
    · have : (j + 1) * S ≤ h * S := Nat.mul_le_mul_right S hlt
      rw [Nat.succ_mul] at this
      omega
    · have : (h + 1) * S ≤ j * S := Nat.mul_le_mul_right S hgt
      rw [Nat.succ_mul] at this
      omega
  · rw [if_neg hq, if_neg hq]

theorem writeAt_end (fc bs : List Nat) : writeAt fc fc.length bs = fc ++ bs := by
  simp [writeAt]

theorem fill_log_end (S : Nat) (k : Nat) (f : File) (h : f.pos = f.content.length) :
    (fill_log S k f).content = f.content ++ List.replicate (k * S) 0 := by
  induction k generalizing f with
  | zero => simp [fill_log]
  | succ k ih =>
    rw [fill_log, ih _ (by simp [File.write, h, writeAt_end])]
    simp only [File.write, h, writeAt_end, List.append_assoc, Nat.succ_mul]
    rw [Nat.add_comm (k * S) S, List.replicate_add]

theorem write_log_none (N S : Nat) (data : List Nat) :
    write_log N S none data = some (le32 1 ++ data ++ List.replicate ((N - 1) * S) 0) := by
  simp only [write_log, Nat.zero_add]
  rw [fill_log_end]
  · simp [File.write, writeAt]
  · simp [File.write, writeAt]

theorem logInv_fresh (N S : Nat) (data : List Nat) (hN : 2 ≤ N) (hd : data.length = S) :
    LogInv N S (le32 1 ++ data ++ List.replicate ((N - 1) * S) 0) [data] := by
  have hbyte : ∀ p, (le32 1 ++ data ++ List.replicate ((N - 1) * S) 0)[p]? =
      if p < 4 then ((le32 1)[p]?) else if p < 4 + S then (data[p - 4]?)
      else if p < 4 + S + (N - 1) * S then some 0 else none := by
    intro p
    by_cases h1 : p < 4
    · rw [if_pos h1, List.append_assoc, List.getElem?_append_left (by simp [le32]; omega)]
    · rw [if_neg h1]
      by_cases h2 : p < 4 + S
      · rw [if_pos h2, List.getElem?_append_left (by simp [le32]; omega),
          List.getElem?_append_right (by simp [le32]; omega)]
        simp [le32]
      · rw [if_neg h2, List.getElem?_append_right (by simp [le32]; omega)]
        simp only [List.length_append, le32_length, hd, List.getElem?_replicate]
        by_cases h3 : p < 4 + S + (N - 1) * S
        · rw [if_pos h3, if_pos (by omega)]
        · rw [if_neg h3, if_neg (by omega)]
  have hmul : (N - 1) * S + S = N * S := by
    rw [← Nat.succ_mul]; congr 1; omega
  refine ⟨?_, ?_, ?_, ?_⟩
  · simp only [List.length_append, le32_length, hd, List.length_replicate]
    omega
  · rw [log_header_of_head _ 1 (by decide)]
    · simp only [List.length_singleton]
      exact (Nat.mod_eq_of_lt (by omega)).symm
    · intro p hp
      rw [hbyte, if_pos hp]
  · intro i hi _
    simp only [List.length_singleton] at hi
    have hi0 : i = 0 := by omega
    subst hi0
    simp only [Nat.zero_mod, List.getElem?_cons_zero, Option.some.injEq]
    apply List.ext_getElem?
    intro q
    rw [getElem?_log_slot, hbyte]
    by_cases hq : q < S
    · rw [if_pos hq, if_neg (by omega), if_pos (by omega)]
      congr 1
      omega
    · rw [if_neg hq, List.getElem?_eq_none (by omega)]
  · intro j hj hjN
    simp only [List.length_singleton] at hj
    apply List.ext_getElem?
    intro q
    rw [getElem?_log_slot, hbyte, List.getElem?_replicate]
    by_cases hq : q < S
    · have h1 : (j + 1) * S ≤ N * S := Nat.mul_le_mul_right S hjN
      have h2 : 1 * S ≤ j * S := Nat.mul_le_mul_right S hj
      rw [Nat.succ_mul] at h1
      rw [Nat.one_mul] at h2
      rw [if_pos hq, if_pos hq, if_neg (by omega), if_neg (by omega), if_pos (by omega)]
    · rw [if_neg hq, if_neg hq]

theorem logInv_step (N S : Nat) (fc data : List Nat) (hist : List (List Nat)) (hN : 2 ≤ N)
    (hS : 0 < S) (hfit : 4 + N * S < 2 ^ 32) (hd : data.length = S)
    (h : LogInv N S fc hist) :
    ∃ fc1, write_log N S (some fc) data = some fc1 ∧ LogInv N S fc1 (hist ++ [data]) := by
  obtain ⟨hlen, hhdr, hrec, hzero⟩ := h
  have hh : log_header fc < N := by rw [hhdr]; exact Nat.mod_lt _ (by omega)
  obtain ⟨fc1, hw, hlen1, hhdr1, hb⟩ := write_log_wf N S fc data hS hfit hlen hh hd
  refine ⟨fc1, hw, hlen1, ?_, ?_, ?_⟩
  · rw [hhdr1, hhdr, List.length_append, List.length_singleton, Nat.mod_add_mod]
  · intro i hi hiN
    simp only [List.length_append, List.length_singleton] at hi hiN
    by_cases hik : i = hist.length
    · subst hik
      rw [List.getElem?_append_right (le_refl _), Nat.sub_self, ← hhdr,
        log_slot_write_log_same S fc fc1 data _ hd hb]
      rfl
    · have hlt : i < hist.length := by omega
      have hne : i % N ≠ log_header fc := by
        rw [hhdr]
        intro heq
        have h0 := Nat.sub_mod_eq_zero_of_mod_eq heq.symm
        have hdvd : N ∣ hist.length - i := Nat.dvd_of_mod_eq_zero h0
        have := Nat.le_of_dvd (by omega) hdvd
        omega
      rw [List.getElem?_append_left hlt, log_slot_write_log_other S fc fc1 data _ _ hne hb]
      exact hrec i hlt (by omega)
  · intro j hj hjN
    simp only [List.length_append, List.length_singleton] at hj
    have hne : j ≠ log_header fc := by
      rw [hhdr, Nat.mod_eq_of_lt (by omega)]
      omega
    rw [log_slot_write_log_other S fc fc1 data _ _ hne hb]
    exact hzero j (by omega) hjN

theorem logInv_write_logs (N S : Nat) (rs : List (List Nat)) (fc : List Nat)
    (hist : List (List Nat)) (hN : 2 ≤ N) (hS : 0 < S) (hfit : 4 + N * S < 2 ^ 32)
    (hrs : ∀ r ∈ rs, r.length = S) (h : LogInv N S fc hist) :
    ∃ fc1, write_logs N S (some fc) rs = some fc1 ∧ LogInv N S fc1 (hist ++ rs) := by
  induction rs generalizing fc hist with
  | nil => exact ⟨fc, rfl, by simpa using h⟩
  | cons r rs ih =>
    obtain ⟨fc1, hw, hinv⟩ :=
      logInv_step N S fc r hist hN hS hfit (hrs r (List.mem_cons_self _ _)) h
    obtain ⟨fc2, hw2, hinv2⟩ := ih fc1 (hist ++ [r])
      (fun x hx => hrs x (List.mem_cons_of_mem _ hx)) hinv
    exact ⟨fc2, by rw [write_logs, hw, hw2], by simpa using hinv2⟩

theorem logInv_fresh_logs (N S : Nat) (rs : List (List Nat)) (hN : 2 ≤ N) (hS : 0 < S)
    (hfit : 4 + N * S < 2 ^ 32) (hrs : ∀ r ∈ rs, r.length = S) (hne : rs ≠ []) :
    ∃ fc, write_logs N S none rs = some fc ∧ LogInv N S fc rs := by
  cases rs with
  | nil => exact absurd rfl hne
  | cons r rs =>
    have hr := hrs r (List.mem_cons_self _ _)
    obtain ⟨fc, hw, hinv⟩ := logInv_write_logs N S rs _ [r] hN hS hfit
      (fun x hx => hrs x (List.mem_cons_of_mem _ hx)) (logInv_fresh N S r hN hr)
    exact ⟨fc, by rw [write_logs, write_log_none, hw], by simpa using hinv⟩

theorem write_logs_append (N S : Nat) (l1 l2 : List (List Nat)) (fs : Option (List Nat)) :
    write_logs N S fs (l1 ++ l2) = write_logs N S (write_logs N S fs l1) l2 := by
  induction l1 generalizing fs with
  | nil => rfl
  | cons a l ih => exact ih (write_log N S fs a)

/-! ### Claims about the event log -/

/-- C3: for a capacity `N ≥ 2`, appending `k` records, `1 ≤ k ≤ N`, with
`write_log` starting without a log file leaves a file of `4 + N * S` bytes whose
header is `k mod N` (so 0 for `k = N`), whose slots `0 .. k-1` hold the records
in order and whose slots `k .. N-1` hold the all-zero record. The record size
`S` is positive and the file size fits the 32-bit file offsets. -/
theorem write_log_fresh_records (N S : Nat) (rs : List (List Nat)) (hN : 2 ≤ N) (hS : 0 < S)
    (hfit : 4 + N * S < 2 ^ 32) (hrs : ∀ r ∈ rs, r.length = S)
    (hk1 : 1 ≤ rs.length) (hkN : rs.length ≤ N) :
    ∃ fc, write_logs N S none rs = some fc ∧ fc.length = 4 + N * S ∧
      log_header fc = rs.length % N ∧ (rs.length = N → log_header fc = 0) ∧
      (∀ j, j < rs.length → rs[j]? = some (log_slot S fc j)) ∧
      (∀ j, rs.length ≤ j → j < N → log_slot S fc j = List.replicate S 0) := by
  have hne : rs ≠ [] := by
    intro h; rw [h] at hk1; simp at hk1
  obtain ⟨fc, hw, hlen, hhdr, hrec, hzero⟩ := logInv_fresh_logs N S rs hN hS hfit hrs hne
  refine ⟨fc, hw, hlen, hhdr, ?_, ?_, hzero⟩
  · intro h
    rw [hhdr, h, Nat.mod_self]
  · intro j hj
    have := hrec j hj (by omega)
    rwa [Nat.mod_eq_of_lt (by omega)] at this

/-- C3 on the scenario of the specification: capacity 5 and the time stamps 10,
20, 30. -/
theorem write_log_fresh_records_witness :
    ∃ fc, write_logs 5 12 none [stamp 10, stamp 20, stamp 30] = some fc ∧
      fc.length = 64 ∧ log_header fc = 3 ∧
      log_slot 12 fc 0 = stamp 10 ∧ log_slot 12 fc 1 = stamp 20 ∧
      log_slot 12 fc 2 = stamp 30 ∧
      log_slot 12 fc 3 = List.replicate 12 0 ∧ log_slot 12 fc 4 = List.replicate 12 0 := by
  obtain ⟨fc, hw, hlen, hhdr, -, hrec, hzero⟩ :=
    write_log_fresh_records 5 12 [stamp 10, stamp 20, stamp 30] (by decide) (by decide)
      (by decide) (by decide) (by decide) (by decide)
  have h0 := hrec 0 (by decide)
  have h1 := hrec 1 (by decide)
  have h2 := hrec 2 (by decide)
  simp only [List.getElem?_cons_zero, List.getElem?_cons_succ, Option.some.injEq] at h0 h1 h2
  exact ⟨fc, hw, hlen, hhdr, h0.symm, h1.symm, h2.symm, hzero 3 (by decide) (by decide),
    hzero 4 (by decide) (by decide)⟩

/-- C4: for a capacity `N ≥ 2`, after appending `k ≥ 1` records to a fresh log
the header is `k mod N` and slot `j` holds the most recent record whose index
(counted from 0) is `j` modulo `N`. After exactly `N` appends the header is 0,
and one more append writes the new record to slot 0, sets the header to 1 and
leaves slots `1 .. N-1` holding the records appended second to `N`-th. The
record size `S` is positive and the file size fits the 32-bit file offsets. -/
theorem write_log_wraparound (N S : Nat) (rs : List (List Nat)) (hN : 2 ≤ N) (hS : 0 < S)
    (hfit : 4 + N * S < 2 ^ 32) (hrs : ∀ r ∈ rs, r.length = S) (hne : rs ≠ []) :
    ∃ fc, write_logs N S none rs = some fc ∧
      log_header fc = rs.length % N ∧
      (∀ i j, i < rs.length → i % N = j →
        (∀ i1, i1 < rs.length → i1 % N = j → i1 ≤ i) → rs[i]? = some (log_slot S fc j)) ∧
      (rs.length = N → log_header fc = 0 ∧
        ∀ r, r.length = S → ∃ fc1, write_logs N S none (rs ++ [r]) = some fc1 ∧
          write_log N S (some fc) r = some fc1 ∧
          log_header fc1 = 1 ∧ log_slot S fc1 0 = r ∧
          ∀ j, 1 ≤ j → j < N → rs[j]? = some (log_slot S fc1 j)) := by
  obtain ⟨fc, hw, hinv⟩ := logInv_fresh_logs N S rs hN hS hfit hrs hne
  refine ⟨fc, hw, hinv.2.1, ?_, ?_⟩
  · intro i j hi hij hmax
    subst hij
    refine hinv.2.2.1 i hi ?_
    by_contra hlt
    have := hmax (i + N) (by omega) (by simp)
    omega
  · intro hk
    refine ⟨by rw [hinv.2.1, hk, Nat.mod_self], fun r hr => ?_⟩
    obtain ⟨fc1, hw1, hlen1, hhdr1, hrec1, -⟩ := logInv_step N S fc r rs hN hS hfit hr hinv
    have hlogs : write_logs N S none (rs ++ [r]) = some fc1 := by
      obtain ⟨fc2, hw2, -⟩ := logInv_write_logs N S [r] fc rs hN hS hfit
        (by simpa using hr) hinv
      rw [write_logs_append, hw]
      simp only [write_logs, hw1]
    simp only [List.length_append, List.length_singleton] at hhdr1 hrec1
    refine ⟨fc1, hlogs, hw1, ?_, ?_, ?_⟩
    · rw [hhdr1, hk, Nat.add_mod, Nat.mod_self, Nat.zero_add, Nat.mod_mod,
        Nat.mod_eq_of_lt (by omega)]
    · have := hrec1 N (by omega) (by omega)
      rw [Nat.mod_self, List.getElem?_append_right (by omega), hk, Nat.sub_self] at this
      simpa using this.symm
    · intro j hj1 hjN
      have := hrec1 j (by omega) (by omega)
      rwa [Nat.mod_eq_of_lt hjN, List.getElem?_append_left (by omega)] at this

/-- C4 with capacity 3: after the records stamped 10, 20, 30 the header is 0,
and appending the record stamped 40 gives header 1 and slots 40, 20, 30. -/
theorem write_log_wraparound_witness :
    ∃ fc, write_logs 3 12 none [stamp 10, stamp 20, stamp 30] = some fc ∧
      log_header fc = 0 ∧
      ∃ fc1, write_logs 3 12 none [stamp 10, stamp 20, stamp 30, stamp 40] = some fc1 ∧
        log_header fc1 = 1 ∧ log_slot 12 fc1 0 = stamp 40 ∧
        log_slot 12 fc1 1 = stamp 20 ∧ log_slot 12 fc1 2 = stamp 30 := by
  obtain ⟨fc, hw, -, -, hwrap⟩ :=
    write_log_wraparound 3 12 [stamp 10, stamp 20, stamp 30] (by decide) (by decide)
      (by decide) (by decide) (by decide)
  obtain ⟨h0, hnext⟩ := hwrap rfl
  obtain ⟨fc1, hw1, -, hh1, hs0, hs⟩ := hnext (stamp 40) rfl
  have h1 := hs 1 (by decide) (by decide)
  have h2 := hs 2 (by decide) (by decide)
  simp only [List.getElem?_cons_zero, List.getElem?_cons_succ, Option.some.injEq] at h1 h2
  exact ⟨fc, hw, h0, fc1, hw1, hh1, hs0, h1.symm, h2.symm⟩

/-- C5: `read_log_start` returns true exactly when the log file exists, holds
at least the 4 header bytes and its header is below `MAX_LOG_RECORDS`; for a
header at or above `MAX_LOG_RECORDS` it returns false; and the handle it leaves
open stands right after the header (or at the end of a shorter file), so no
record byte was read. -/
theorem read_log_start_iff (N : Nat) (fs : Option (List Nat)) (lf : Option File) :
    ((read_log_start N fs lf).1 = true ↔
      ∃ fc, fs = some fc ∧ 4 ≤ fc.length ∧ log_header fc < N) ∧
    (∀ fc, fs = some fc → N ≤ log_header fc → (read_log_start N fs lf).1 = false) ∧
    (∀ fc, fs = some fc →
      (read_log_start N fs lf).2 = some { content := fc, pos := min 4 fc.length }) := by
  cases fs with
  | none => simp [read_log_start]
  | some fc =>
    by_cases h4 : 4 ≤ fc.length
    · have hlt : ¬ fc.length < 4 := by omega
      have hmin : min 4 fc.length = 4 := Nat.min_eq_left h4
      refine ⟨?_, ?_, ?_⟩
      · simp [read_log_start, File.readBytes, log_header, h4, hlt]
      · intro fc1 hfc hge
        cases hfc
        simp [read_log_start, File.readBytes, hlt]
        exact hge
      · intro fc1 hfc
        cases hfc
        simp [read_log_start, File.readBytes, hlt]
    · have hlt : fc.length < 4 := by omega
      refine ⟨?_, ?_, ?_⟩
      · simp [read_log_start, File.readBytes, h4, hlt]
      · intro fc1 hfc _
        cases hfc
        simp [read_log_start, File.readBytes, hlt]
      · intro fc1 hfc
        cases hfc
        simp [read_log_start, File.readBytes, hlt]

/-- C5 on a file of capacity 5 whose header was overwritten with 7: the call
fails and the handle stands at offset 4. -/
theorem read_log_start_iff_witness :
    read_log_start 5 (some (le32 7 ++ List.replicate 60 0)) none
      = (false, some { content := le32 7 ++ List.replicate 60 0, pos := 4 }) :=
  Prod.ext
    ((read_log_start_iff 5 (some (le32 7 ++ List.replicate 60 0)) none).2.1 _ rfl (by decide))
    ((read_log_start_iff 5 (some (le32 7 ++ List.replicate 60 0)) none).2.2 _ rfl)

/-- C9: on a log file of `4 + N * S` bytes whose header `h` is below `N`,
`write_log` sets the header to `(h + 1) mod N`, writes the record at slot `h`,
that is at byte offset `4 + h * S`, leaves every byte from offset 4 on outside
that slot, hence every other slot, unchanged, and leaves the file length
unchanged; the new header is again below `N`. The record size `S` is positive
and the file size fits the 32-bit file offsets. -/
theorem write_log_existing (N S : Nat) (fc data : List Nat) (hS : 0 < S)
    (hfit : 4 + N * S < 2 ^ 32) (hlen : fc.length = 4 + N * S)
    (hh : log_header fc < N) (hd : data.length = S) :
    ∃ fc1, write_log N S (some fc) data = some fc1 ∧
      log_header fc1 = (log_header fc + 1) % N ∧
      (fc1.drop (4 + log_header fc * S)).take S = data ∧
      log_slot S fc1 (log_header fc) = data ∧
      (∀ p, 4 ≤ p → (p < 4 + log_header fc * S ∨ 4 + log_header fc * S + S ≤ p) →
        fc1[p]? = fc[p]?) ∧
      (∀ j, j ≠ log_header fc → log_slot S fc1 j = log_slot S fc j) ∧
      fc1.length = fc.length ∧ log_header fc1 < N := by
  obtain ⟨fc1, hw, hlen1, hhdr1, hb⟩ := write_log_wf N S fc data hS hfit hlen hh hd
  have hsame := log_slot_write_log_same S fc fc1 data _ hd hb
  refine ⟨fc1, hw, hhdr1, hsame, hsame, ?_, ?_, by rw [hlen1, hlen], ?_⟩
  · intro p hp hout
    rw [hb p hp, if_neg (by omega)]
  · intro j hj
    exact log_slot_write_log_other S fc fc1 data _ j hj hb
  · rw [hhdr1]
    exact Nat.mod_lt _ (by omega)

/-- C9 on a file of capacity 3 with header 2: the record goes to slot 2 and the
header wraps to 0. -/
theorem write_log_existing_witness :
    ∃ fc1, write_log 3 12 (some (le32 2 ++ stamp 10 ++ stamp 20 ++ stamp 0)) (stamp 30)
        = some fc1 ∧
      log_header fc1 = 0 ∧ log_slot 12 fc1 2 = stamp 30 ∧
      log_slot 12 fc1 0 = stamp 10 ∧ log_slot 12 fc1 1 = stamp 20 ∧ fc1.length = 40 := by
  obtain ⟨fc1, hw, hh, -, hs, -, ho, hl, -⟩ :=
    write_log_existing 3 12 (le32 2 ++ stamp 10 ++ stamp 20 ++ stamp 0) (stamp 30)
      (by decide) (by decide) (by decide) (by decide) (by decide)
  have hhv : log_header (le32 2 ++ stamp 10 ++ stamp 20 ++ stamp 0) = 2 := by decide
  rw [hhv] at hh hs ho
  exact ⟨fc1, hw, hh, hs, (ho 0 (by decide)).trans (by decide),
    (ho 1 (by decide)).trans (by decide), hl⟩

/-! ### Lemmas about the option store -/

theorem options_default_names (d : Defines) :
    (options_default d).map (·.name) = option_names := rfl

theorem options_default_maxes (d : Defines) :
    (options_default d).map (·.max) = option_maxes := rfl

theorem find_option_loop_congr (o1 o2 : List OptionStruct) (name : List Char)
    (h : o1.map (·.name) = o2.map (·.name)) (todo i : Nat) :
    find_option_loop o1 name todo i = find_option_loop o2 name todo i := by
  induction todo generalizing i with
  | zero => rfl
  | succ todo ih =>
    have hi : (o1[i]?).map (·.name) = (o2[i]?).map (·.name) := by
      rw [← List.getElem?_map, ← List.getElem?_map, h]
    simp only [find_option_loop, hi, ih]

theorem find_option_loop_absent (options : List OptionStruct) (name : List Char)
    (h : ∀ o ∈ options, o.name ≠ name) (todo i : Nat) :
    find_option_loop options name todo i = -1 := by
  induction todo generalizing i with
  | zero => rfl
  | succ todo ih =>
    rw [find_option_loop, if_neg, ih]
    intro heq
    cases ho : options[i]? with
    | none => rw [ho] at heq; simp at heq
    | some o =>
      rw [ho] at heq
      simp only [Option.map_some', Option.some.injEq] at heq
      exact h o (List.getElem?_mem ho) heq

theorem find_option_sample_index :
    ∀ i : Nat, i < 25 → ∀ name, option_names[i]? = some name →
      find_option (options_default sample_defines) name = (i : Int) := by
  intro i hi name hname
  interval_cases i <;> simp only [option_names, List.map, List.getElem?_cons_zero,
    List.getElem?_cons_succ, Option.some.injEq] at hname <;> subst hname <;> decide

theorem find_option_of_name (options : List OptionStruct)
    (hn : options.map (·.name) = option_names) (i : Nat) (name : List Char)
    (h : option_names[i]? = some name) : find_option options name = (i : Int) := by
  have hi : i < 25 := by
    have := (List.getElem?_eq_some_iff.1 h).1
    simpa [option_names] using this
  rw [find_option, find_option_loop_congr options (options_default sample_defines) name
    (by rw [hn, options_default_names])]
  exact find_option_sample_index i hi name h

theorem find_option_absent (options : List OptionStruct)
    (hn : options.map (·.name) = option_names) (name : List Char)
    (h : name ∉ option_names) : find_option options name = -1 := by
  apply find_option_loop_absent
  intro o ho heq
  apply h
  rw [← hn, ← heq]
  exact List.mem_map_of_mem _ ho

theorem readStringUntil_append (t : Char) (l rest : List Char) (h : t ∉ l) :
    readStringUntil t (l ++ t :: rest) = (l, rest) := by
  induction l with
  | nil => simp [readStringUntil]
  | cons c l ih =>
    have hc : c ≠ t := fun hct => h (by simp [hct])
    have hl : t ∉ l := fun hm => h (List.mem_cons_of_mem _ hm)
    simp [readStringUntil, hc, ih hl]

theorem dropWhile_isspace_of_head (v : List Char)
    (h : ∀ c, v.head? = some c → isspace c = false) : v.dropWhile isspace = v := by
  cases v with
  | nil => rfl
  | cons c v => simp [List.dropWhile, h c rfl]

theorem clean_value_head (v : List Char) (h : clean_value v) :
    ∀ c, v.head? = some c → isspace c = false := by
  intro c hc
  have := h.2.1
  rw [hc] at this
  simpa using this

theorem clean_value_last (v : List Char) (h : clean_value v) :
    ∀ c, v.getLast? = some c → isspace c = false := by
  intro c hc
  have := h.2.2
  rw [hc] at this
  simpa using this

theorem clean_value_intro (v : List Char) (h1 : Char.ofNat 10 ∉ v)
    (h2 : ∀ c, v.head? = some c → isspace c = false)
    (h3 : ∀ c, v.getLast? = some c → isspace c = false) : clean_value v := by
  refine ⟨h1, ?_, ?_⟩
  · cases hh : v.head? with
    | none => simp
    | some c => simp [h2 c hh]
  · cases hh : v.getLast? with
    | none => simp
    | some c => simp [h3 c hh]

theorem trim_clean (v : List Char) (h : clean_value v) : trim (v ++ [Char.ofNat 13]) = v := by
  have hhead := clean_value_head v h
  have hlast := clean_value_last v h
  cases v with
  | nil => decide
  | cons c v =>
    have h1 : (c :: v ++ [Char.ofNat 13]).dropWhile isspace = c :: v ++ [Char.ofNat 13] :=
      dropWhile_isspace_of_head _ (fun x hx => hhead x (by simpa using hx))
    have hsp : isspace (Char.ofNat 13) = true := by decide
    have h2 : ((c :: v).reverse).dropWhile isspace = (c :: v).reverse :=
      dropWhile_isspace_of_head _ (fun x hx => hlast x (by
        rw [List.head?_reverse] at hx; exact hx))
    rw [trim, h1, List.reverse_append, List.reverse_singleton, List.singleton_append,
      List.dropWhile_cons, if_pos hsp, h2, List.reverse_reverse]

theorem digit_toNat (k : Nat) (hk : k < 10) : (Char.ofNat (48 + k)).toNat = 48 + k := by
  interval_cases k <;> rfl

theorem printNumber_loop_acc (fuel n : Nat) (acc : List Char) :
    printNumber_loop fuel n acc = printNumber_loop fuel n [] ++ acc := by
  induction fuel generalizing n acc with
  | zero => rfl
  | succ fuel ih =>
    simp only [printNumber_loop]
    split
    · rfl
    · rw [ih, ih (n / 10) [_]]
      simp

theorem atol_digits_snoc (l : List Char) (d : Char) (a : Nat)
    (hl : ∀ c ∈ l, isdigit c = true) (hd : isdigit d = true) :
    atol_digits (l ++ [d]) a = atol_digits l a * 10 + (d.toNat - 48) := by
  induction l generalizing a with
  | nil => simp [atol_digits, hd]
  | cons c l ih =>
    have hc := hl c (List.mem_cons_self _ _)
    simp only [List.cons_append, atol_digits, hc, if_true]
    exact ih _ (fun x hx => hl x (List.mem_cons_of_mem _ hx))

theorem printNumber_loop_spec (fuel n : Nat) (h : n < 10 ^ fuel) :
    (∀ c ∈ printNumber_loop fuel n [], isdigit c = true) ∧
    atol_digits (printNumber_loop fuel n []) 0 = n ∧
    (0 < fuel → printNumber_loop fuel n [] ≠ []) := by
  induction fuel generalizing n with
  | zero =>
    have : n = 0 := by simpa using h
    subst this
    exact ⟨by simp [printNumber_loop], rfl, fun h0 => absurd h0 (by decide)⟩
  | succ fuel ih =>
    have hk : n % 10 < 10 := Nat.mod_lt _ (by decide)
    have hd : isdigit (Char.ofNat (48 + n % 10)) = true := by
      simp only [isdigit, digit_toNat _ hk]
      simp
      omega
    simp only [printNumber_loop]
    by_cases h0 : n / 10 = 0
    · rw [if_pos h0]
      refine ⟨by simpa using hd, ?_, fun _ => by simp⟩
      simp only [atol_digits, hd, if_true, digit_toNat _ hk]
      omega
    · rw [if_neg h0, printNumber_loop_acc]
      have hlt : n / 10 < 10 ^ fuel := by
        rw [Nat.div_lt_iff_lt_mul (by decide)]
        rw [Nat.pow_succ] at h
        exact h
      obtain ⟨ih1, ih2, -⟩ := ih (n / 10) hlt
      refine ⟨?_, ?_, fun _ => by simp⟩
      · intro c hc
        rcases List.mem_append.1 hc with hc | hc
        · exact ih1 c hc
        · rw [List.mem_singleton.1 hc]; exact hd
      · rw [atol_digits_snoc _ _ _ ih1 hd, ih2, digit_toNat _ hk]
        omega

theorem printNumber_spec (n : Nat) (h : n < 2 ^ 32) :
    (∀ c ∈ printNumber n, isdigit c = true) ∧ atol_digits (printNumber n) 0 = n ∧
    printNumber n ≠ [] := by
  have := printNumber_loop_spec 10 n (lt_trans h (by decide))
  rw [printNumber, Nat.mod_eq_of_lt h]
  exact ⟨this.1, this.2.1, this.2.2 (by decide)⟩

theorem isdigit_not_space (c : Char) (h : isdigit c = true) :
    isspace c = false ∧ c ≠ Char.ofNat 10 ∧ c.toNat ≠ 45 ∧ c.toNat ≠ 43 := by
  simp only [isdigit, Bool.and_eq_true, decide_eq_true_eq] at h
  refine ⟨?_, ?_, by omega, by omega⟩
  · simp only [isspace, Bool.or_eq_false_iff, decide_eq_false_iff_not, Bool.and_eq_false_iff,
      not_le]
    omega
  · intro hc
    rw [hc] at h
    have : (Char.ofNat 10).toNat = 10 := rfl
    omega

theorem printNumber_clean (n : Nat) (h : n < 2 ^ 32) : clean_value (printNumber n) := by
  obtain ⟨hd, -, -⟩ := printNumber_spec n h
  refine clean_value_intro _ ?_ ?_ ?_
  · intro hm
    exact (isdigit_not_space _ (hd _ hm)).2.1 rfl
  · intro c hc
    exact (isdigit_not_space c (hd c (List.mem_of_mem_head? hc))).1
  · intro c hc
    exact (isdigit_not_space c (hd c (List.mem_of_mem_getLast? hc))).1

theorem toInt_printNumber (n : Nat) (h : n < 2 ^ 31) : toInt (printNumber n) = (n : Int) := by
  obtain ⟨hd, hv, hne⟩ := printNumber_spec n (lt_trans h (by decide))
  have hclean := printNumber_clean n (lt_trans h (by decide))
  rw [toInt, dropWhile_isspace_of_head _ (clean_value_head _ hclean)]
  cases hp : printNumber n with
  | nil => exact absurd hp hne
  | cons c cs =>
    have hc := isdigit_not_space c (hd c (by rw [hp]; exact List.mem_cons_self _ _))
    simp only [hc.2.2.1, hc.2.2.2, if_false]
    rw [← hp, hv, clamp_long]
    rw [if_neg (by omega), if_neg (by omega)]

theorem to_byte_natCast (n : Nat) : to_byte (n : Int) = n % 256 := by
  unfold to_byte
  omega

theorem option_line_eq (o : OptionStruct) (rest : List Char) :
    option_line o ++ rest =
      o.name ++ Char.ofNat 58 :: ((option_value o ++ [Char.ofNat 13]) ++ Char.ofNat 10 :: rest) := by
  have h58 : ":".toList = [Char.ofNat 58] := rfl
  simp [option_line, option_value, CRLF, h58, List.append_assoc]

theorem options_load_loop_nil (fuel nopts : Nat) (cur : List OptionStruct) :
    options_load_loop fuel [] nopts cur = cur := by
  cases fuel <;> simp [options_load_loop]

theorem options_load_loop_lines (os : List OptionStruct) (cur : List OptionStruct)
    (nopts fuel : Nat) (hgood : ∀ o ∈ os, good_option o)
    (hn : nopts + os.length ≤ NUM_OPTIONS + 1)
    (hf : (os.flatMap option_line).length ≤ fuel) :
    options_load_loop fuel (os.flatMap option_line) nopts cur =
      os.foldl (fun c o => apply_option c o.name (option_value o)) cur := by
  induction os generalizing cur nopts fuel with
  | nil => simp [options_load_loop_nil]
  | cons o os ih =>
    obtain ⟨hname, hclean⟩ := hgood o (List.mem_cons_self _ _)
    rw [List.flatMap_cons, option_line_eq] at hf ⊢
    have h1 := readStringUntil_append (Char.ofNat 58) o.name
      ((option_value o ++ [Char.ofNat 13]) ++ Char.ofNat 10 :: os.flatMap option_line) hname
    have hlf : Char.ofNat 10 ∉ option_value o ++ [Char.ofNat 13] := by
      intro hm
      rcases List.mem_append.1 hm with hm | hm
      · exact hclean.1 hm
      · exact absurd (List.mem_singleton.1 hm) (by decide)
    have h2 := readStringUntil_append (Char.ofNat 10) (option_value o ++ [Char.ofNat 13])
      (os.flatMap option_line) hlf
    cases fuel with
    | zero => simp at hf
    | succ fuel =>
      simp only [List.length_cons, List.length_append, List.length_singleton] at hf hn
      have hnop : (nopts + 1) % 256 = nopts + 1 := by
        apply Nat.mod_eq_of_lt
        simp only [NUM_OPTIONS] at hn
        omega
      have hcap : ¬ (nopts + 1 > NUM_OPTIONS + 1) := by omega
      have hne : (o.name ++ Char.ofNat 58 ::
          ((option_value o ++ [Char.ofNat 13]) ++ Char.ofNat 10 :: os.flatMap option_line)).isEmpty
          = false := by
        cases o.name <;> rfl
      rw [options_load_loop]
      simp only [hne, h1, h2, hnop, hcap, trim_clean _ hclean, if_false, Bool.false_eq_true]
      rw [ih _ _ _ (fun x hx => hgood x (List.mem_cons_of_mem _ hx)) (by omega) (by omega)]
      rfl

theorem load_entry_name (b o : OptionStruct) : (load_entry b o).name = b.name := by
  unfold load_entry; split <;> rfl

theorem apply_option_at (cur : List OptionStruct) (hn : cur.map (·.name) = option_names)
    (k : Nat) (o b : OptionStruct) (hk : option_names[k]? = some o.name)
    (hb : cur[k]? = some b) :
    apply_option cur o.name (option_value o) = cur.set k (load_entry b o) := by
  have hfind := find_option_of_name cur hn k o.name hk
  simp only [apply_option, hfind, Int.toNat_ofNat, hb, load_entry]
  rw [if_neg (by omega)]
  split <;> rfl

theorem foldl_apply_option (os : List OptionStruct) (k : Nat) (cur : List OptionStruct)
    (hn : cur.map (·.name) = option_names)
    (hos : os.map (·.name) = option_names.drop k) :
    ((os.foldl (fun c o => apply_option c o.name (option_value o)) cur).map (·.name)
        = option_names) ∧
    ∀ i, (os.foldl (fun c o => apply_option c o.name (option_value o)) cur)[i]? =
      if k ≤ i then
        (match os[i - k]? with
          | some o => (cur[i]?).map (fun b => load_entry b o)
          | none => cur[i]?)
      else cur[i]? := by
  induction os generalizing k cur with
  | nil =>
    refine ⟨hn, fun i => ?_⟩
    simp
  | cons o os ih =>
    have hlen : cur.length = option_names.length := by rw [← hn, List.length_map]
    have hk : option_names[k]? = some o.name := by
      have := congrArg List.head? hos
      simp only [List.map_cons, List.head?_cons, List.head?_drop] at this
      exact this.symm
    have hklt : k < cur.length := by
      rw [hlen]; exact (List.getElem?_eq_some_iff.1 hk).1
    obtain ⟨b, hb⟩ : ∃ b, cur[k]? = some b := ⟨cur[k], List.getElem?_eq_getElem hklt⟩
    have hbn : b.name = o.name := by
      have := congrArg (fun l => l[k]?) hn
      simp only [List.getElem?_map, hb, Option.map_some', hk, Option.some.injEq] at this
      exact this
    have hstep := apply_option_at cur hn k o b hk hb
    have hn1 : (cur.set k (load_entry b o)).map (·.name) = option_names := by
      rw [List.map_set, load_entry_name, ← hn]
      apply List.ext_getElem?
      intro i
      by_cases hik : k = i
      · subst hik
        rw [List.getElem?_set_self (by simpa using hklt), List.getElem?_map, hb]
        rfl
      · rw [List.getElem?_set_ne hik]
    have hos1 : os.map (·.name) = option_names.drop (k + 1) := by
      have := congrArg List.tail hos
      simpa [List.tail_drop] using this
    obtain ⟨ih1, ih2⟩ := ih (k + 1) (cur.set k (load_entry b o)) hn1 hos1
    simp only [List.foldl_cons, hstep]
    refine ⟨ih1, fun i => ?_⟩
    rw [ih2 i]
    by_cases h1 : k + 1 ≤ i
    · have hki : k ≤ i := by omega
      have hne : k ≠ i := by omega
      rw [if_pos h1, if_pos hki, List.getElem?_set_ne hne]
      have : i - k = (i - (k + 1)) + 1 := by omega
      rw [this, List.getElem?_cons_succ]
    · rw [if_neg h1]
      by_cases h2 : k = i
      · subst h2
        rw [if_pos (le_refl _), Nat.sub_self, List.getElem?_cons_zero,
          List.getElem?_set_self hklt, hb]
        rfl
      · rw [if_neg (by omega), List.getElem?_set_ne h2]

theorem option_names_no_colon : ∀ n ∈ option_names, Char.ofNat 58 ∉ n := by decide

/-- Loading the file saved from `t` into `base`: every entry of `base` is
updated from the entry of `t` at the same index. -/
theorem options_load_save (t base : List OptionStruct)
    (ht : t.map (·.name) = option_names) (hb : base.map (·.name) = option_names)
    (hgood : ∀ o ∈ t, good_option o) :
    ∀ i : Nat, (options_load (some (options_save t)) base)[i]? =
      match t[i]? with
      | some o => (base[i]?).map (fun b => load_entry b o)
      | none => base[i]? := by
  have hlen : t.length = NUM_OPTIONS := by
    have := congrArg List.length ht
    simpa using this
  have htake : t.take NUM_OPTIONS = t := by
    rw [← hlen]; exact List.take_length _
  intro i
  rw [options_load, options_save, htake,
    options_load_loop_lines t base 0 _ hgood (by rw [hlen]; omega) (le_refl _)]
  have := (foldl_apply_option t 0 base hb (by simpa using ht)).2 i
  simpa using this

/-- The value read back for an integer option is the saved value modulo 256;
a clean string is read back unchanged. -/
theorem load_entry_value (b o : OptionStruct) (hmax : b.max = o.max) :
    (o.max ≠ 0 → o.ival < 2 ^ 31 → (load_entry b o).ival = o.ival % 256) ∧
    (o.max = 0 → (load_entry b o).sval = o.sval) := by
  constructor
  · intro h0 hlt
    have hb0 : b.max ≠ 0 := by rw [hmax]; exact h0
    simp only [load_entry, hb0, option_value, h0, ne_eq, not_false_eq_true, if_true]
    rw [toInt_printNumber _ hlt, to_byte_natCast]
  · intro h0
    have hb0 : ¬ b.max ≠ 0 := by rw [hmax]; simpa using h0
    simp only [load_entry, hb0, option_value, h0, ne_eq, not_true_eq_false, if_false]

theorem good_option_of (o : OptionStruct) (hn : o.name ∈ option_names)
    (hi : o.max ≠ 0 → o.ival < 2 ^ 32) (hs : o.max = 0 → clean_value o.sval) :
    good_option o := by
  refine ⟨option_names_no_colon _ hn, ?_⟩
  unfold option_value
  by_cases h0 : o.max = 0
  · rw [if_neg (by simpa using h0)]; exact hs h0
  · rw [if_pos h0]; exact printNumber_clean _ (hi h0)

/-- What save followed by load does to each entry, for a table `t` with the
compiled names and `max` column whose integers are below `2 ^ 31` and whose
strings are clean, loaded into a table `base` with the same two columns. -/
theorem options_load_save_values (t base : List OptionStruct)
    (ht : t.map (·.name) = option_names) (hb : base.map (·.name) = option_names)
    (htm : t.map (·.max) = option_maxes) (hbm : base.map (·.max) = option_maxes)
    (hint : ∀ o ∈ t, o.max ≠ 0 → o.ival < 2 ^ 31)
    (hstr : ∀ o ∈ t, o.max = 0 → clean_value o.sval) :
    ∀ (i : Nat) (o : OptionStruct), t[i]? = some o →
      ∃ r, (options_load (some (options_save t)) base)[i]? = some r ∧
        r.name = o.name ∧ r.max = o.max ∧
        (o.max ≠ 0 → r.ival = o.ival % 256) ∧ (o.max = 0 → r.sval = o.sval) := by
  intro i o hio
  have hgood : ∀ x ∈ t, good_option x := by
    intro x hx
    refine good_option_of x ?_ (fun h0 => lt_trans (hint x hx h0) (by decide)) (hstr x hx)
    rw [← ht]; exact List.mem_map_of_mem _ hx
  have hi : i < t.length := (List.getElem?_eq_some_iff.1 hio).1
  have hlt : t.length = base.length := by
    have h1 := congrArg List.length ht
    have h2 := congrArg List.length hb
    simp only [List.length_map] at h1 h2
    omega
  obtain ⟨b, hbi⟩ : ∃ b, base[i]? = some b :=
    ⟨base[i], List.getElem?_eq_getElem (by omega)⟩
  have hname : b.name = o.name := by
    have h1 := congrArg (fun l => l[i]?) ht
    have h2 := congrArg (fun l => l[i]?) hb
    simp only [List.getElem?_map, hio, hbi, Option.map_some'] at h1 h2
    rw [← h2] at h1
    exact (Option.some.inj h1).symm
  have hmax : b.max = o.max := by
    have h1 := congrArg (fun l => l[i]?) htm
    have h2 := congrArg (fun l => l[i]?) hbm
    simp only [List.getElem?_map, hio, hbi, Option.map_some'] at h1 h2
    rw [← h2] at h1
    exact (Option.some.inj h1).symm
  have hval := load_entry_value b o hmax
  refine ⟨load_entry b o, ?_, ?_, ?_, ?_, hval.2⟩
  · rw [options_load_save t base ht hb hgood i, hio, hbi]
    rfl
  · rw [load_entry_name, hname]
  · rw [← hmax]; unfold load_entry; split <;> rfl
  · intro h0
    exact hval.1 h0 (hint o (List.getElem?_mem hio) h0)

/-! ### Claims about the option store -/

/-- C6: over a table holding the 25 compiled names, which are pairwise
distinct, `find_option` returns the table index of every compiled name and -1
for every string that is not equal to a compiled name, such as `FWV`. -/
theorem find_option_exact (options : List OptionStruct)
    (hn : options.map (·.name) = option_names) :
    option_names.length = 25 ∧ option_names.Nodup ∧
    (∀ (i : Nat) name, option_names[i]? = some name → find_option options name = (i : Int)) ∧
    (∀ name, name ∉ option_names → find_option options name = -1) ∧
    find_option options "FWV".toList = -1 := by
  refine ⟨rfl, by decide, find_option_of_name options hn, find_option_absent options hn, ?_⟩
  exact find_option_absent options hn _ (by decide)

/-- C6 on the compiled table: `subn` is found at index 24, `fwv` at index 0,
and `FWV` is not found. -/
theorem find_option_exact_witness :
    find_option (options_default sample_defines) "subn".toList = 24 ∧
    find_option (options_default sample_defines) "fwv".toList = 0 ∧
    find_option (options_default sample_defines) "FWV".toList = -1 :=
  ⟨(find_option_exact (options_default sample_defines) rfl).2.2.1 24 _ rfl,
    (find_option_exact (options_default sample_defines) rfl).2.2.1 0 _ rfl,
    (find_option_exact (options_default sample_defines) rfl).2.2.2.2⟩

/-- C7, evaluated at the configuration file saved from a table that meets the
conditions of the claim, with `fwv = 100` and `dth = 300`: whenever the compiled
version `OG_FWV` is not 100, after `options_setup` the table and the re-saved
file have `fwv = OG_FWV`, and `dth = 44` instead of the 300 recorded in the file
before the call. -/
theorem options_setup_migration_truncates_dth (d : Defines) (hfwv : d.OG_FWV ≠ 100) :
    (∀ o ∈ table_fwv_100, (o.max ≠ 0 → o.ival ≤ o.max) ∧ (o.max = 0 → clean_value o.sval)) ∧
    "fwv:100".toList ++ CRLF <:+: options_save table_fwv_100 ∧
    "dth:300".toList ++ CRLF <:+: options_save table_fwv_100 ∧
    ∃ file opts,
      options_setup d (some (options_save table_fwv_100)) (options_default d)
        = (some file, opts) ∧
      file = options_save opts ∧
      (∃ r, opts[0]? = some r ∧ r.name = "fwv".toList ∧ r.ival = d.OG_FWV) ∧
      (∃ r, opts[2]? = some r ∧ r.name = "dth".toList ∧ r.ival = 44) := by
  refine ⟨by decide, by decide, by decide, ?_⟩
  have hv := options_load_save_values table_fwv_100 (options_default d) rfl rfl rfl rfl
    (by decide) (by decide)
  obtain ⟨r0, hr0, hn0, -, hi0, -⟩ := hv 0 _ rfl
  obtain ⟨r2, hr2, hn2, -, hi2, -⟩ := hv 2 _ rfl
  have hi0v : r0.ival = 100 := hi0 (by decide)
  have hne : r0.ival ≠ d.OG_FWV := by rw [hi0v]; exact fun h => hfwv h.symm
  have hlt : 0 < (options_load (some (options_save table_fwv_100)) (options_default d)).length :=
    (List.getElem?_eq_some_iff.1 hr0).1
  have hsetup : options_setup d (some (options_save table_fwv_100)) (options_default d) =
      (some (options_save
          ((options_load (some (options_save table_fwv_100)) (options_default d)).set 0
            { r0 with ival := d.OG_FWV })),
        (options_load (some (options_save table_fwv_100)) (options_default d)).set 0
          { r0 with ival := d.OG_FWV }) := by
    simp only [options_setup, OPTION_FWV, hr0, hne, ne_eq, not_false_eq_true, if_true]
  refine ⟨_, _, hsetup, rfl, ⟨{ r0 with ival := d.OG_FWV }, ?_, hn0, rfl⟩,
    ⟨r2, ?_, hn2, hi2 (by decide)⟩⟩
  · exact List.getElem?_set_self hlt
  · rw [List.getElem?_set_ne (by decide)]
    exact hr2

/-- C7 with the compiled version 110. -/
theorem options_setup_migration_truncates_dth_witness :
    ∃ file opts,
      options_setup sample_defines (some (options_save table_fwv_100))
        (options_default sample_defines) = (some file, opts) ∧
      file = options_save opts ∧
      (∃ r, opts[0]? = some r ∧ r.name = "fwv".toList ∧ r.ival = 110) ∧
      (∃ r, opts[2]? = some r ∧ r.name = "dth".toList ∧ r.ival = 44) :=
  (options_setup_migration_truncates_dth sample_defines (by decide)).2.2.2

/-! ### The sort loop of `read_distance` -/

theorem sort_inner_spec (temp : Nat) (rp : List Nat) (x : Nat) (post : List Nat) :
    ∃ buf1 pos, sort_inner temp rp.length (rp.reverse ++ x :: post) = some (buf1, pos) ∧
      pos < buf1.length ∧
      buf1.set pos temp = (List.orderedInsert (· ≥ ·) temp rp).reverse ++ post := by
  induction rp generalizing x post with
  | nil => exact ⟨x :: post, 0, rfl, by simp, by simp⟩
  | cons p rp ih =>
    have hget : (List.reverse (p :: rp) ++ x :: post)[rp.length]? = some p := by
      rw [List.reverse_cons, List.append_assoc, List.getElem?_append_right (by simp)]
      simp
    rw [List.length_cons, sort_inner, hget]
    by_cases hp : p > temp
    · have hlen : rp.length + 1 < (List.reverse (p :: rp) ++ x :: post).length := by
        simp
      have hset : (List.reverse (p :: rp) ++ x :: post).set (rp.length + 1) p
          = rp.reverse ++ p :: p :: post := by
        rw [List.reverse_cons, List.append_assoc, List.set_append_right _ _ (by simp)]
        simp
      obtain ⟨buf1, pos, h1, h2, h3⟩ := ih p (p :: post)
      refine ⟨buf1, pos, ?_, h2, ?_⟩
      · simp only [hp, if_true, hlen, hset]
        exact h1
      · rw [h3, List.orderedInsert, if_neg (by omega)]
        simp
    · refine ⟨List.reverse (p :: rp) ++ x :: post, rp.length + 1,
        by simp only [hp, if_false], by simp, ?_⟩
      rw [List.orderedInsert, if_pos (by omega), List.reverse_cons, List.append_assoc,
        List.set_append_right _ _ (by simp)]
      simp

theorem sort_round_spec (rp : List Nat) (x : Nat) (post : List Nat) :
    sort_round rp.length (rp.reverse ++ x :: post)
      = some ((List.orderedInsert (· ≥ ·) x rp).reverse ++ post) := by
  have hget : (rp.reverse ++ x :: post)[rp.length]? = some x := by
    rw [List.getElem?_append_right (by simp)]
    simp
  obtain ⟨buf1, pos, h1, h2, h3⟩ := sort_inner_spec x rp x post
  simp only [sort_round, hget, h1, h2, if_true, h3]

theorem foldl_orderedInsert (l m : List Nat) :
    l.foldl (fun acc x => List.orderedInsert (· ≥ ·) x acc) (List.insertionSort (· ≥ ·) m)
      = List.insertionSort (· ≥ ·) (l.reverse ++ m) := by
  induction l generalizing m with
  | nil => rfl
  | cons x l ih =>
    have h : List.orderedInsert (· ≥ ·) x (List.insertionSort (· ≥ ·) m)
        = List.insertionSort (· ≥ ·) (x :: m) := rfl
    rw [List.foldl_cons, h, ih]
    simp

theorem sort_loop_spec (todo : Nat) (rp rest : List Nat) (h : todo ≤ rest.length) :
    sort_loop todo rp.length (rp.reverse ++ rest) =
      some (((rest.take todo).foldl (fun acc x => List.orderedInsert (· ≥ ·) x acc) rp).reverse
        ++ rest.drop todo) := by
  induction todo generalizing rp rest with
  | zero => simp [sort_loop]
  | succ todo ih =>
    cases rest with
    | nil => simp at h
    | cons x rest =>
      have hl : (List.orderedInsert (· ≥ ·) x rp).length = rp.length + 1 :=
        List.orderedInsert_length _ _ _
      rw [sort_loop, sort_round_spec]
      show sort_loop todo (rp.length + 1) _ = _
      rw [← hl, ih _ _ (by simpa using h)]
      simp

theorem sort_loop_head (todo : Nat) (buf : List Nat) (h : todo + 1 ≤ buf.length) :
    sort_loop todo 1 buf =
      some ((List.insertionSort (· ≥ ·) (buf.take (todo + 1)).reverse).reverse
        ++ buf.drop (todo + 1)) := by
  cases buf with
  | nil => simp at h
  | cons x rest =>
    have := sort_loop_spec todo [x] rest (by simpa using h)
    simp only [List.length_singleton, List.reverse_singleton, List.singleton_append] at this
    rw [this]
    have h1 : [x] = List.insertionSort (· ≥ ·) [x] := rfl
    rw [h1, foldl_orderedInsert]
    simp

/-- C19: for every 7-element buffer the sort loop of `read_distance`
(`out = 1 .. KAVG / 2`) returns, without any access outside the buffer, a
buffer whose positions 0..3 hold a permutation of the original elements 0..3
in non-decreasing order and whose positions 4..6 are unchanged; the element at
index `KAVG / 2 = 3` is the maximum of the original elements 0..3, and it is
what `read_distance` converts when the buffer is full. The inner loop is a
structural recursion, so it terminates. -/
theorem sort_loop_postcondition (buf : List Nat) (hlen : buf.length = 7) :
    ∃ r, sort_loop (KAVG / 2) 1 buf = some r ∧ r.length = 7 ∧
      (r.take 4).Perm (buf.take 4) ∧ (r.take 4).Sorted (· ≤ ·) ∧ r.drop 4 = buf.drop 4 ∧
      ∃ m, r[KAVG / 2]? = some m ∧ m ∈ buf.take 4 ∧ (∀ x ∈ buf.take 4, x ≤ m) ∧
        ∀ conv s, s.fullbuffer = true → s.ud_buffer = buf →
          read_distance conv s = some { value := conv m, raw := some m, interrupts := true } := by
  have hk : KAVG / 2 = 3 := rfl
  have hspec := sort_loop_head 3 buf (by omega)
  have hIlen : (List.insertionSort (· ≥ ·) (buf.take 4).reverse).length = 4 := by
    rw [List.length_insertionSort]; simp; omega
  have hperm : (List.insertionSort (· ≥ ·) (buf.take 4).reverse).reverse.Perm (buf.take 4) :=
    (List.reverse_perm _).trans ((List.perm_insertionSort _ _).trans (List.reverse_perm _))
  have hsorted : (List.insertionSort (· ≥ ·) (buf.take 4).reverse).reverse.Sorted (· ≤ ·) := by
    have := List.sorted_insertionSort (· ≥ ·) (buf.take 4).reverse
    exact List.pairwise_reverse.2 this
  have htake : ((List.insertionSort (· ≥ ·) (buf.take 4).reverse).reverse ++ buf.drop 4).take 4
      = (List.insertionSort (· ≥ ·) (buf.take 4).reverse).reverse := by
    rw [List.take_append_of_le_length (by simp [hIlen])]
    exact List.take_of_length_le (by simp [hIlen])
  have hdrop : ((List.insertionSort (· ≥ ·) (buf.take 4).reverse).reverse ++ buf.drop 4).drop 4
      = buf.drop 4 := by
    rw [List.drop_append_of_le_length (by simp [hIlen])]
    rw [List.drop_of_length_le (by simp [hIlen])]
    rfl
  have hmem : ∀ x, x ∈ (List.insertionSort (· ≥ ·) (buf.take 4).reverse).reverse ↔
      x ∈ buf.take 4 := fun x => hperm.mem_iff
  obtain ⟨m, hm⟩ : ∃ m, (List.insertionSort (· ≥ ·) (buf.take 4).reverse).reverse[3]? = some m :=
    ⟨_, List.getElem?_eq_getElem (by simp [hIlen])⟩
  have hm7 : ((List.insertionSort (· ≥ ·) (buf.take 4).reverse).reverse ++ buf.drop 4)[3]?
      = some m := by
    rw [List.getElem?_append_left (by simp [hIlen])]
    exact hm
  have hmax : ∀ x ∈ buf.take 4, x ≤ m := by
    intro x hx
    obtain ⟨i, hi⟩ := List.mem_iff_getElem?.1 ((hmem x).2 hx)
    have hi4 : i < 4 := by
      have := (List.getElem?_eq_some_iff.1 hi).1
      simpa [hIlen] using this
    rcases Nat.lt_or_ge i 3 with h3 | h3
    · obtain ⟨h1, h1e⟩ := List.getElem?_eq_some_iff.1 hi
      obtain ⟨h2, h2e⟩ := List.getElem?_eq_some_iff.1 hm
      have := List.pairwise_iff_getElem.1 hsorted i 3 h1 h2 h3
      rw [h1e, h2e] at this
      exact this
    · have : i = 3 := by omega
      subst this
      rw [hm] at hi
      exact le_of_eq (Option.some.inj hi).symm
  refine ⟨_, by rw [hk]; exact hspec, ?_, ?_, ?_, hdrop, m, by rw [hk]; exact hm7,
    (hmem m).1 (List.getElem?_mem hm), hmax, ?_⟩
  · simp [hIlen]; omega
  · rw [htake]; exact hperm
  · rw [htake]; exact hsorted
  · intro conv s hf hb
    have h7 : KAVG ≤ s.ud_buffer.length := by rw [hb, hlen]; exact le_refl _
    have ht : s.ud_buffer.take KAVG = buf := by
      rw [hb]; exact List.take_of_length_le (by rw [hlen]; exact le_refl _)
    simp only [read_distance, hf, h7, ht, hk, hspec, hm7, Bool.not_true, if_true,
      Bool.false_eq_true, if_false]

/-- C19 on the buffer 5, 1, 9, 3, 7, 2, 8: the loop yields 1, 3, 5, 9, 7, 2, 8 and
the element at index 3 is 9. -/
theorem sort_loop_postcondition_witness :
    sort_loop (KAVG / 2) 1 [5, 1, 9, 3, 7, 2, 8] = some [1, 3, 5, 9, 7, 2, 8] ∧
    ∃ m, m ∈ [5, 1, 9, 3] ∧ (∀ x ∈ [5, 1, 9, 3], x ≤ m) ∧
      ∀ conv s, s.fullbuffer = true → s.ud_buffer = [5, 1, 9, 3, 7, 2, 8] →
        read_distance conv s = some { value := conv m, raw := some m, interrupts := true } := by
  obtain ⟨r, hr, -, -, -, -, m, -, hm, hmax, hread⟩ :=
    sort_loop_postcondition [5, 1, 9, 3, 7, 2, 8] rfl
  have hr2 : sort_loop (KAVG / 2) 1 [5, 1, 9, 3, 7, 2, 8] = some [1, 3, 5, 9, 7, 2, 8] := by
    decide
  exact ⟨hr2, m, hm, hmax, hread⟩

/-! ### Further claims about the sampler -/

theorem ud_step_count (s s1 : UdState) (e : UdEvent) (h : ud_step s e = some s1) :
    (captured s e).toList.length + (if s1.triggered then 1 else 0)
      ≤ (if e = UdEvent.trigger then 1 else 0) + (if s.triggered then 1 else 0) := by
  cases e with
  | trigger =>
    simp only [ud_step, ud_start_trigger, Option.some.injEq] at h
    subst h
    simp [captured]
  | edge echo now =>
    by_cases ht : s.triggered = true
    · cases echo with
      | true =>
        simp only [ud_step, ud_isr, ht, Bool.not_true, Bool.false_eq_true, if_false, if_true,
          Option.some.injEq] at h
        subst h
        simp [captured, ht]
      | false =>
        simp only [ud_step, ud_isr, ht, Bool.not_true, Bool.false_eq_true, if_false] at h
        split at h
        · simp only [Option.some.injEq] at h
          subst h
          simp [captured, ht]
        · exact absurd h (by simp)
    · simp only [ud_step, ud_isr, ht, Bool.not_false, if_true, Option.some.injEq] at h
      subst h
      simp [captured, ht]

theorem ud_run_count (evs : List UdEvent) (s : UdState) (hist : List Nat) (h : UdInv s hist) :
    ∃ s1, ud_run s evs = some s1 ∧
      (ud_samples s evs).length + (if s1.triggered then 1 else 0)
        ≤ evs.count UdEvent.trigger + (if s.triggered then 1 else 0) := by
  induction evs generalizing s hist with
  | nil => exact ⟨s, rfl, by simp [ud_samples]⟩
  | cons e es ih =>
    obtain ⟨s1, hs1, hinv⟩ := udInv_step s hist e h
    obtain ⟨s2, hs2, hle⟩ := ih s1 _ hinv
    have hstep := ud_step_count s s1 e hs1
    refine ⟨s2, by simp [ud_run, hs1, hs2], ?_⟩
    rw [ud_samples_cons, hs1, List.count_cons]
    simp only [List.length_append]
    have hbeq : (if (e == UdEvent.trigger) = true then 1 else 0)
        = (if e = UdEvent.trigger then 1 else 0) := by
      simp
    rw [hbeq]
    omega

theorem ud_run_append (a b : List UdEvent) (s : UdState) :
    ud_run s (a ++ b) = (ud_run s a).bind (fun s1 => ud_run s1 b) := by
  induction a generalizing s with
  | nil => rfl
  | cons e a ih =>
    simp only [List.cons_append, ud_run]
    cases ud_step s e with
    | none => rfl
    | some s1 => exact ih s1

/-- C14: an `ud_isr` invocation while `triggered` is false returns the state
unchanged, so `ud_start`, `ud_buffer`, `ud_i` and `fullbuffer` keep their
values; a falling-edge capture clears `triggered`; and in every state reached
from the initial one the number of samples stored, plus one if a trigger is
still outstanding, is at most the number of triggers issued. -/
theorem ud_isr_trigger_gate :
    (∀ echo now s, s.triggered = false → ud_isr echo now s = some s) ∧
    (∀ now s, s.triggered = true → s.ud_i < s.ud_buffer.length →
      ∃ s1, ud_isr false now s = some s1 ∧ s1.triggered = false) ∧
    (∀ evs, ∃ s, ud_run UdState.init evs = some s ∧
      (ud_samples UdState.init evs).length + (if s.triggered then 1 else 0)
        ≤ evs.count UdEvent.trigger ∧
      (ud_samples UdState.init evs).length ≤ evs.count UdEvent.trigger) := by
  refine ⟨?_, ?_, ?_⟩
  · intro echo now s h
    simp [ud_isr, h]
  · intro now s ht hi
    exact ⟨_, by simp only [ud_isr, ht, hi]; simp; rfl, rfl⟩
  · intro evs
    obtain ⟨s, hs, hle⟩ := ud_run_count evs UdState.init [] udInv_init
    have h0 : (if UdState.init.triggered = true then 1 else 0) = 0 := rfl
    rw [h0] at hle
    exact ⟨s, hs, hle, by omega⟩

/-- C14 on a run with one trigger followed by a rising edge and two falling
edges: one sample is stored. -/
theorem ud_isr_trigger_gate_witness :
    ∃ s, ud_run UdState.init
        [.trigger, .edge true 0, .edge false 5, .edge false 9] = some s ∧
      ud_samples UdState.init [.trigger, .edge true 0, .edge false 5, .edge false 9] = [5] ∧
      (ud_samples UdState.init [.trigger, .edge true 0, .edge false 5, .edge false 9]).length
        ≤ 1 := by
  obtain ⟨s, hs, -, hle⟩ :=
    ud_isr_trigger_gate.2.2 [.trigger, .edge true 0, .edge false 5, .edge false 9]
  exact ⟨s, hs, by decide, hle⟩

/-- C15: after `n` captures from the initial state the buffer has 7 entries,
the cursor `ud_i` is `n mod 7` and so below 7, no buffer access was out of
bounds, `fullbuffer` is true exactly when `n ≥ 7`, and the sample captured `j`
captures ago, `j < min n 7`, is at slot `(n - 1 - j) mod 7`. Once full the
buffer holds exactly the last 7 samples, and `fullbuffer` stays true whatever
events follow. -/
theorem ring_buffer_invariant (evs : List UdEvent) :
    ∃ s, ud_run UdState.init evs = some s ∧
      s.ud_buffer.length = KAVG ∧
      s.ud_i = (ud_samples UdState.init evs).length % KAVG ∧ s.ud_i < KAVG ∧
      (s.fullbuffer = true ↔ KAVG ≤ (ud_samples UdState.init evs).length) ∧
      (∀ j, j < min (ud_samples UdState.init evs).length KAVG →
        s.ud_buffer[((ud_samples UdState.init evs).length - 1 - j) % KAVG]?
          = (ud_samples UdState.init evs)[(ud_samples UdState.init evs).length - 1 - j]?) ∧
      (KAVG ≤ (ud_samples UdState.init evs).length →
        s.ud_buffer.Perm
          ((ud_samples UdState.init evs).drop ((ud_samples UdState.init evs).length - KAVG))) ∧
      (∀ more, s.fullbuffer = true →
        ∃ s2, ud_run UdState.init (evs ++ more) = some s2 ∧ s2.fullbuffer = true) := by
  obtain ⟨s, hs, hinv⟩ := udInv_run_init evs
  obtain ⟨hlen, hi, hfull, hbuf, hcl⟩ := hinv
  generalize ud_samples UdState.init evs = hist at *
  have hfull2 : s.fullbuffer = true ↔ KAVG ≤ hist.length := by rw [hfull]; simp
  refine ⟨s, hs, hlen, hi, by rw [hi]; exact Nat.mod_lt _ (by decide), hfull2, ?_, ?_, ?_⟩
  · intro j hj
    simp only [KAVG] at hj ⊢
    exact hbuf _ (by omega) (by simp only [KAVG]; omega)
  · intro h7
    simp only [KAVG] at h7 hlen hbuf ⊢
    have hrot : s.ud_buffer = (hist.drop (hist.length - 7)).rotate (7 - hist.length % 7) := by
      apply List.ext_getElem?
      intro i
      by_cases hi7 : i < 7
      · rw [List.getElem?_rotate (by simp; omega)]
        simp only [List.length_drop, List.getElem?_drop]
        have hl : hist.length - (hist.length - 7) = 7 := by omega
        rw [hl]
        have := hbuf (hist.length - 7 + (i + (7 - hist.length % 7)) % 7) (by omega) (by omega)
        rw [← this]
        congr 1
        omega
      · rw [List.getElem?_eq_none (by omega), List.getElem?_eq_none (by simp; omega)]
    rw [hrot]
    exact List.rotate_perm _ _
  · intro more hf
    obtain ⟨s2, hs2, hinv2⟩ := udInv_run more s hist ⟨hlen, hi, hfull, hbuf, hcl⟩
    refine ⟨s2, by rw [ud_run_append, hs]; exact hs2, ?_⟩
    rw [hinv2.2.2.1]
    have := hfull2.1 hf
    simp only [List.length_append, decide_eq_true_eq]
    omega

/-- C15 after the eight samples 5, 1, 9, 3, 7, 2, 8, 4: the cursor is 1, the
buffer is full and holds the last seven samples. -/
theorem ring_buffer_invariant_witness :
    ∃ s, ud_run UdState.init (feed_events [5, 1, 9, 3, 7, 2, 8, 4]) = some s ∧
      s.ud_i = 1 ∧ s.fullbuffer = true ∧ s.ud_buffer.Perm [1, 9, 3, 7, 2, 8, 4] := by
  obtain ⟨s, hs, -, hi, -, hfull, -, hperm, -⟩ :=
    ring_buffer_invariant (feed_events [5, 1, 9, 3, 7, 2, 8, 4])
  have hsam : ud_samples UdState.init (feed_events [5, 1, 9, 3, 7, 2, 8, 4])
      = [5, 1, 9, 3, 7, 2, 8, 4] := by decide
  rw [hsam] at hi hfull hperm
  exact ⟨s, hs, hi, hfull.2 (by decide), hperm (by decide)⟩

/-- C16, evaluated: in the initial state and after one capture, where
`fullbuffer` is false, `read_distance` returns with interrupts disabled, because
it returns before the call of `interrupts()`; with a full buffer it returns
with interrupts enabled. -/
theorem read_distance_warm_up_interrupts_off :
    (∀ conv, read_distance conv UdState.init
      = some { value := 0, raw := none, interrupts := false }) ∧
    (∃ s, feed [300] = some s ∧ ∀ conv, read_distance conv s
      = some { value := conv 300, raw := some 300, interrupts := false }) ∧
    (∃ s, feed [5, 1, 9, 3, 7, 2, 8] = some s ∧ ∀ conv,
      (read_distance conv s).map (·.interrupts) = some true) :=
  ⟨fun _ => rfl, ⟨_, rfl, fun _ => rfl⟩, ⟨_, rfl, fun _ => rfl⟩⟩

/-! ### Further claims about the event log -/

theorem read_log_next_at (S : Nat) (fc : List Nat) (p : Nat) :
    read_log_next S (some { content := fc, pos := p })
      = (decide (((fc.drop p).take S).length = S), (fc.drop p).take S,
          some { content := fc, pos := p + ((fc.drop p).take S).length }) := rfl

theorem read_log_skip_at (S : Nat) (fc : List Nat) (j p : Nat) (h : p + j * S ≤ fc.length) :
    read_log_skip S j (some { content := fc, pos := p })
      = some { content := fc, pos := p + j * S } := by
  induction j generalizing p with
  | zero => simp [read_log_skip]
  | succ j ih =>
    rw [Nat.succ_mul] at h
    have hl : ((fc.drop p).take S).length = S := by
      rw [List.length_take, List.length_drop]; omega
    rw [read_log_skip, read_log_next_at, hl, ih (p + S) (by omega), Nat.succ_mul]
    congr 2
    omega

theorem read_log_start_handle (N : Nat) (fc : List Nat) (lf : Option File) :
    (read_log_start N (some fc) lf).2 = some { content := fc, pos := min 4 fc.length } := by
  simp only [read_log_start, File.readBytes, List.drop_zero, Nat.zero_add, List.length_take]
  split <;> rfl

/-- C11: on a log file of `4 + N * S` bytes, `read_log_start` returns true
exactly when the header is below `N`; whatever the header is, the call of
`read_log_next` number `j + 1`, for `j < N`, returns true and delivers the
record of slot `j`, and the call number `N + 1` returns false and delivers
nothing, because no byte is left. The record size `S` is positive. -/
theorem read_log_next_storage_order (N S : Nat) (fc : List Nat) (lf : Option File)
    (hS : 0 < S) (hlen : fc.length = 4 + N * S) :
    ((read_log_start N (some fc) lf).1 = true ↔ log_header fc < N) ∧
    (∀ j, j < N →
      read_log_next S (read_log_skip S j (read_log_start N (some fc) lf).2)
        = (true, log_slot S fc j, some { content := fc, pos := 4 + (j + 1) * S })) ∧
    (read_log_next S (read_log_skip S N (read_log_start N (some fc) lf).2)).1 = false ∧
    (read_log_next S (read_log_skip S N (read_log_start N (some fc) lf).2)).2.1 = [] := by
  have hhandle : (read_log_start N (some fc) lf).2 = some { content := fc, pos := 4 } := by
    rw [read_log_start_handle, Nat.min_eq_left (by omega)]
  rw [hhandle]
  refine ⟨?_, ?_, ?_, ?_⟩
  · have h4 : ¬ fc.length < 4 := by omega
    simp [read_log_start, File.readBytes, log_header, h4]
  · intro j hj
    have hmul : (j + 1) * S ≤ N * S := Nat.mul_le_mul_right S hj
    rw [Nat.succ_mul] at hmul
    have hl : ((fc.drop (4 + j * S)).take S).length = S := by
      rw [List.length_take, List.length_drop]; omega
    rw [read_log_skip_at S fc j 4 (by omega), read_log_next_at, hl, Nat.succ_mul,
      decide_eq_true rfl, Nat.add_assoc]
    rfl
  · rw [read_log_skip_at S fc N 4 (by omega), read_log_next_at]
    have hl : ((fc.drop (4 + N * S)).take S).length = 0 := by
      rw [List.length_take, List.length_drop]; omega
    rw [hl]
    exact decide_eq_false (by omega)
  · rw [read_log_skip_at S fc N 4 (by omega), read_log_next_at]
    exact List.eq_nil_of_length_eq_zero (by rw [List.length_take, List.length_drop]; omega)

/-- C11 on a log of capacity 3 with header 2: the first call delivers slot 0,
the third slot 2, the fourth fails. -/
theorem read_log_next_storage_order_witness :
    (read_log_start 3 (some (le32 2 ++ stamp 10 ++ stamp 20 ++ stamp 30)) none).1 = true ∧
    (read_log_next 12 (read_log_skip 12 0
      (read_log_start 3 (some (le32 2 ++ stamp 10 ++ stamp 20 ++ stamp 30)) none).2)).2.1
        = stamp 10 ∧
    (read_log_next 12 (read_log_skip 12 2
      (read_log_start 3 (some (le32 2 ++ stamp 10 ++ stamp 20 ++ stamp 30)) none).2)).2.1
        = stamp 30 ∧
    (read_log_next 12 (read_log_skip 12 3
      (read_log_start 3 (some (le32 2 ++ stamp 10 ++ stamp 20 ++ stamp 30)) none).2)).1
        = false := by
  obtain ⟨h1, h2, h3, -⟩ := read_log_next_storage_order 3 12
    (le32 2 ++ stamp 10 ++ stamp 20 ++ stamp 30) none (by decide) (by decide)
  refine ⟨h1.2 (by decide), ?_, ?_, h3⟩
  · rw [h2 0 (by decide)]; decide
  · rw [h2 2 (by decide)]; decide

set_option maxRecDepth 100000 in
/-- C17, evaluated at a log file of capacity 3 and record size 12, 40 bytes
long, whose header holds 7: `write_log` writes the record at byte offset
`4 + 7 * 12 = 88`, beyond the three slots, which are left as they were, and the
file is 100 bytes long afterwards. -/
theorem write_log_header_7_grows :
    log_header_7.length = 4 + 3 * 12 ∧ log_header log_header_7 = 7 ∧
    ∃ fc1, write_log 3 12 (some log_header_7) (stamp 40) = some fc1 ∧
      fc1.length = 100 ∧ (fc1.drop (4 + 7 * 12)).take 12 = stamp 40 ∧
      log_header fc1 = 2 ∧
      log_slot 12 fc1 0 = stamp 10 ∧ log_slot 12 fc1 1 = stamp 20 ∧
      log_slot 12 fc1 2 = stamp 30 := by
  refine ⟨by decide, by decide, _, rfl, ?_, ?_, ?_, ?_, ?_, ?_⟩ <;> decide

set_option maxRecDepth 100000 in
/-- C18, evaluated at a log file of capacity 3 whose header holds 7:
`read_log_start` returns false but leaves `log_file` open at offset 4, and the
following `read_log_next` returns true and delivers the record of slot 0. When
the file is missing, or shorter than its header, the following `read_log_next`
does return false. -/
theorem read_log_next_after_failed_start :
    read_log_start 3 (some log_header_7) none
      = (false, some { content := log_header_7, pos := 4 }) ∧
    read_log_next 12 (read_log_start 3 (some log_header_7) none).2
      = (true, stamp 10, some { content := log_header_7, pos := 16 }) ∧
    (∀ N S lf, read_log_next S (read_log_start N none lf).2 = (false, [], none)) ∧
    (∀ N lf, (read_log_next 12 (read_log_start N (some [7, 0]) lf).2).1 = false) := by
  refine ⟨by decide, by decide, fun _ _ _ => rfl, fun _ _ => ?_⟩
  rw [read_log_start_handle]
  decide

/-! ### Further lemmas about the option store -/

theorem readStringUntil_split (t : Char) (l : List Char) :
    t ∉ (readStringUntil t l).1 ∧
    (l = (readStringUntil t l).1 ++ t :: (readStringUntil t l).2 ∨
      (l = (readStringUntil t l).1 ∧ (readStringUntil t l).2 = [])) := by
  induction l with
  | nil => simp [readStringUntil]
  | cons c l ih =>
    by_cases hc : c = t
    · subst hc
      simp [readStringUntil]
    · obtain ⟨h1, h2⟩ := ih
      simp only [readStringUntil, hc, if_false]
      refine ⟨?_, ?_⟩
      · intro hm
        rcases List.mem_cons.1 hm with h | h
        · exact hc h.symm
        · exact h1 h
      · rcases h2 with h | ⟨h, h'⟩
        · left
          rw [List.cons_append, ← h]
        · right
          exact ⟨by rw [← h], h'⟩

theorem readStringUntil_rest_length (t : Char) (l : List Char) :
    (readStringUntil t l).2.length ≤ l.length - 1 := by
  induction l with
  | nil => simp [readStringUntil]
  | cons c l ih =>
    by_cases hc : c = t
    · simp [readStringUntil, hc]
    · simp only [readStringUntil, hc, if_false, List.length_cons, Nat.add_sub_cancel]
      omega

theorem parse_pair_rest_length (file : List Char) :
    (parse_pair file).2.2.length ≤ file.length - 1 := by
  have h1 := readStringUntil_rest_length (Char.ofNat 58) file
  have h2 := readStringUntil_rest_length (Char.ofNat 10) (readStringUntil (Char.ofNat 58) file).2
  simp only [parse_pair]
  omega

theorem parsed_pairs_nil (k : Nat) : parsed_pairs k [] = [] := by
  cases k <;> rfl

theorem options_load_loop_eq_foldl (fuel : Nat) (file : List Char) (nopts : Nat)
    (cur : List OptionStruct) (hf : file.length ≤ fuel) (hn : nopts ≤ NUM_OPTIONS + 1) :
    options_load_loop fuel file nopts cur =
      (parsed_pairs (NUM_OPTIONS + 1 - nopts) file).foldl
        (fun c p => apply_option c p.1 p.2) cur := by
  induction fuel generalizing file nopts cur with
  | zero =>
    have : file = [] := List.eq_nil_of_length_eq_zero (by omega)
    subst this
    simp [options_load_loop, parsed_pairs_nil]
  | succ fuel ih =>
    cases file with
    | nil => simp [options_load_loop, parsed_pairs_nil]
    | cons c cs =>
      have hlen := parse_pair_rest_length (c :: cs)
      simp only [List.length_cons, Nat.add_sub_cancel] at hlen hf
      have hnop : (nopts + 1) % 256 = nopts + 1 := by
        apply Nat.mod_eq_of_lt
        simp only [NUM_OPTIONS] at hn
        omega
      rw [options_load_loop]
      simp only [List.isEmpty_cons, Bool.false_eq_true, if_false, hnop]
      by_cases hcap : nopts + 1 > NUM_OPTIONS + 1
      · have h0 : NUM_OPTIONS + 1 - nopts = 0 := by omega
        rw [if_pos hcap, h0]
        rfl
      · have hk : NUM_OPTIONS + 1 - nopts = (NUM_OPTIONS + 1 - (nopts + 1)) + 1 := by omega
        rw [if_neg hcap, hk, parsed_pairs]
        simp only [List.isEmpty_cons, Bool.false_eq_true, if_false, List.foldl_cons]
        exact ih _ _ _ (by simp only [parse_pair] at hlen; omega) (by omega)

theorem options_load_eq_foldl (file : List Char) (options : List OptionStruct) :
    options_load (some file) options =
      (parsed_pairs (NUM_OPTIONS + 1) file).foldl (fun c p => apply_option c p.1 p.2) options := by
  rw [options_load, options_load_loop_eq_foldl _ _ _ _ (le_refl _) (Nat.zero_le _)]
  rfl

theorem take_parsed_nil (k : Nat) : take_parsed k [] = [] := by
  cases k <;> rfl

/-- A file with a non-empty rest after its first parsed line consists of a
name, a colon, a value, a line feed and that rest. -/
theorem parse_pair_split (file : List Char) (h : (parse_pair file).2.2 ≠ []) :
    ∃ a b rest, Char.ofNat 58 ∉ a ∧ Char.ofNat 10 ∉ b ∧
      file = a ++ Char.ofNat 58 :: (b ++ Char.ofNat 10 :: rest) ∧
      parse_pair file = (a, trim b, rest) := by
  obtain ⟨h1, h2⟩ := readStringUntil_split (Char.ofNat 58) file
  obtain ⟨h3, h4⟩ := readStringUntil_split (Char.ofNat 10) (readStringUntil (Char.ofNat 58) file).2
  simp only [parse_pair] at h ⊢
  rcases h4 with h4 | ⟨-, h4⟩
  · rcases h2 with h2 | ⟨-, h2⟩
    · refine ⟨_, _, _, h1, h3, ?_, rfl⟩
      rw [← h4]
      exact h2
    · rw [h2] at h
      exact absurd (by simp [readStringUntil]) h
  · exact absurd h4 h

theorem parse_pair_append (a b rest : List Char) (ha : Char.ofNat 58 ∉ a)
    (hb : Char.ofNat 10 ∉ b) :
    parse_pair (a ++ Char.ofNat 58 :: (b ++ Char.ofNat 10 :: rest)) = (a, trim b, rest) := by
  simp only [parse_pair, readStringUntil_append _ _ _ ha, readStringUntil_append _ _ _ hb]

theorem isEmpty_eq_false_of_ne {α : Type} (l : List α) (h : l ≠ []) : l.isEmpty = false := by
  cases l with
  | nil => exact absurd rfl h
  | cons _ _ => rfl

/-- Unfolding `take_parsed` on a file whose first parsed line has a non-empty
rest. -/
theorem take_parsed_succ (k : Nat) (a b rest : List Char) (ha : Char.ofNat 58 ∉ a)
    (hb : Char.ofNat 10 ∉ b) :
    take_parsed (k + 1) (a ++ Char.ofNat 58 :: (b ++ Char.ofNat 10 :: rest))
      = a ++ Char.ofNat 58 :: (b ++ Char.ofNat 10 :: take_parsed k rest) := by
  have hemp : (a ++ Char.ofNat 58 :: (b ++ Char.ofNat 10 :: rest)).isEmpty = false :=
    isEmpty_eq_false_of_ne _ (by simp)
  rw [take_parsed]
  simp only [hemp, Bool.false_eq_true, if_false, parse_pair_append _ _ _ ha hb]
  have hsplit : a ++ Char.ofNat 58 :: (b ++ Char.ofNat 10 :: rest)
      = (a ++ Char.ofNat 58 :: (b ++ [Char.ofNat 10])) ++ rest := by simp
  have hl : (a ++ Char.ofNat 58 :: (b ++ Char.ofNat 10 :: rest)).length - rest.length
      = (a ++ Char.ofNat 58 :: (b ++ [Char.ofNat 10])).length := by
    simp only [List.length_append, List.length_cons, List.length_nil]
    omega
  rw [hl, hsplit, List.take_left' rfl]
  simp

theorem take_parsed_last (k : Nat) (file : List Char) (h : (parse_pair file).2.2 = []) :
    take_parsed (k + 1) file = file := by
  by_cases hne : file = []
  · subst hne; rfl
  · rw [take_parsed]
    simp only [isEmpty_eq_false_of_ne _ hne, Bool.false_eq_true, if_false, h, take_parsed_nil,
      List.length_nil, Nat.sub_zero, List.take_length, List.append_nil]

theorem parsed_pairs_take_parsed (k : Nat) (file : List Char) :
    parsed_pairs k (take_parsed k file) = parsed_pairs k file := by
  induction k generalizing file with
  | zero => rfl
  | succ k ih =>
    by_cases h2 : (parse_pair file).2.2 = []
    · rw [take_parsed_last k file h2]
    · obtain ⟨a, b, rest, ha, hb, hfile, hpp⟩ := parse_pair_split file h2
      subst hfile
      rw [take_parsed_succ k a b rest ha hb, parsed_pairs, parsed_pairs]
      simp only [isEmpty_eq_false_of_ne _ (List.append_ne_nil_of_right_ne_nil a
        (List.cons_ne_nil _ _)), Bool.false_eq_true, if_false, parse_pair_append _ _ _ ha hb, ih]

theorem take_parsed_isPrefix (k : Nat) (file : List Char) : take_parsed k file <+: file := by
  induction k generalizing file with
  | zero => exact List.nil_prefix
  | succ k ih =>
    by_cases h2 : (parse_pair file).2.2 = []
    · rw [take_parsed_last k file h2]
    · obtain ⟨a, b, rest, ha, hb, hfile, -⟩ := parse_pair_split file h2
      subst hfile
      rw [take_parsed_succ k a b rest ha hb]
      obtain ⟨t, ht⟩ := ih rest
      refine ⟨t, ?_⟩
      conv_rhs => rw [← ht]
      simp

theorem takeWhile_dropWhile_lf (file : List Char) :
    Char.ofNat 10 ∉ file.takeWhile (· ≠ Char.ofNat 10) ∧
    (file.dropWhile (· ≠ Char.ofNat 10) = [] ∨
      ∃ rest, file.dropWhile (· ≠ Char.ofNat 10) = Char.ofNat 10 :: rest) := by
  induction file with
  | nil => simp
  | cons c cs ih =>
    by_cases hc : c = Char.ofNat 10
    · subst hc
      simp [List.takeWhile, List.dropWhile]
    · obtain ⟨h1, h2⟩ := ih
      refine ⟨?_, ?_⟩
      · simp only [List.takeWhile, ne_eq, hc, not_false_eq_true, decide_True, List.mem_cons,
          not_or]
        exact ⟨fun h => hc h.symm, h1⟩
      · simpa [List.dropWhile, hc] using h2

theorem take_parsed_eq_take_lines (k : Nat) (file : List Char)
    (h : lines_have_colon k file = true) : take_parsed k file = take_lines k file := by
  induction k generalizing file with
  | zero => rfl
  | succ k ih =>
    by_cases hne : file = []
    · subst hne; rfl
    · obtain ⟨hlf, hdrop⟩ := takeWhile_dropWhile_lf file
      have hfile := List.takeWhile_append_dropWhile (· ≠ Char.ofNat 10) file
      rw [lines_have_colon] at h
      simp only [isEmpty_eq_false_of_ne _ hne, Bool.false_or, Bool.and_eq_true,
        decide_eq_true_eq] at h
      obtain ⟨hcolon, hrest⟩ := h
      obtain ⟨ha, hsplit⟩ := readStringUntil_split (Char.ofNat 58)
        (file.takeWhile (· ≠ Char.ofNat 10))
      rcases hsplit with hsplit | ⟨hsplit, -⟩
      · have hb : Char.ofNat 10 ∉
            (readStringUntil (Char.ofNat 58) (file.takeWhile (· ≠ Char.ofNat 10))).2 := by
          intro hm
          apply hlf
          rw [hsplit]
          exact List.mem_append_right _ (List.mem_cons_of_mem _ hm)
        rcases hdrop with hd | ⟨rest, hd⟩
        · rw [hd] at hfile hrest
          rw [take_lines, hd]
          simp only [List.append_nil] at hfile ⊢
          rw [hfile]
          apply take_parsed_last
          have hfile2 : file = (readStringUntil (Char.ofNat 58)
              (file.takeWhile (· ≠ Char.ofNat 10))).1 ++ Char.ofNat 58 ::
              (readStringUntil (Char.ofNat 58) (file.takeWhile (· ≠ Char.ofNat 10))).2 := by
            rw [← hsplit, hfile]
          generalize (readStringUntil (Char.ofNat 58)
            (file.takeWhile (· ≠ Char.ofNat 10))).1 = a at *
          generalize (readStringUntil (Char.ofNat 58)
            (file.takeWhile (· ≠ Char.ofNat 10))).2 = b at *
          rw [hfile2]
          simp only [parse_pair, readStringUntil_append _ _ _ ha]
          rcases (readStringUntil_split (Char.ofNat 10) b).2 with h4 | ⟨-, h4⟩
          · exact absurd (by rw [h4]; simp) hb
          · exact h4
        · rw [hd] at hfile hrest
          rw [take_lines, hd]
          simp only []
          rw [← ih rest hrest]
          generalize (readStringUntil (Char.ofNat 58)
            (file.takeWhile (· ≠ Char.ofNat 10))).1 = a at *
          generalize (readStringUntil (Char.ofNat 58)
            (file.takeWhile (· ≠ Char.ofNat 10))).2 = b at *
          have hfile2 : file = a ++ Char.ofNat 58 :: (b ++ Char.ofNat 10 :: rest) := by
            rw [← hfile, hsplit]; simp
          rw [hsplit]
          conv_lhs => rw [hfile2]
          rw [take_parsed_succ k a b rest ha hb]
          simp
      · rw [← hsplit] at ha
        exact absurd hcolon ha

/-- C13, amended to parsed lines: `options_load` applies exactly the first
`NUM_OPTIONS + 1` parsed `name:value` lines of the file, in order, and nothing
else; so for every file the table after loading it equals the table after
loading only the part of the file that holds its first `NUM_OPTIONS + 1` parsed
lines. A parsed line runs from a name through the next colon to the next line
feed, so it spans several text lines when a text line has no colon; when each
of the first `NUM_OPTIONS + 1` text lines has a colon, the parsed lines are the
text lines and the equation holds for the first `NUM_OPTIONS + 1` text lines. -/
theorem options_load_line_cap (file : List Char) (options : List OptionStruct) :
    options_load (some file) options =
      (parsed_pairs (NUM_OPTIONS + 1) file).foldl (fun c p => apply_option c p.1 p.2) options ∧
    (parsed_pairs (NUM_OPTIONS + 1) file).length ≤ NUM_OPTIONS + 1 ∧
    take_parsed (NUM_OPTIONS + 1) file <+: file ∧
    options_load (some (take_parsed (NUM_OPTIONS + 1) file)) options
      = options_load (some file) options ∧
    (lines_have_colon (NUM_OPTIONS + 1) file = true →
      options_load (some (take_lines (NUM_OPTIONS + 1) file)) options
        = options_load (some file) options) := by
  have hcap : options_load (some (take_parsed (NUM_OPTIONS + 1) file)) options
      = options_load (some file) options := by
    rw [options_load_eq_foldl, options_load_eq_foldl, parsed_pairs_take_parsed]
  refine ⟨options_load_eq_foldl file options, ?_, take_parsed_isPrefix _ _, hcap,
    fun h => by rw [← take_parsed_eq_take_lines _ _ h]; exact hcap⟩
  · have : ∀ k f, (parsed_pairs k f).length ≤ k := by
      intro k
      induction k with
      | zero => intro f; simp [parsed_pairs]
      | succ k ih =>
        intro f
        rw [parsed_pairs]
        split
        · simp
        · simp only [List.length_cons]
          exact Nat.succ_le_succ (ih _)
    exact this _ _

set_option maxRecDepth 1000000 in
/-- C13 on a file of 27 lines that all have a colon: the first 26 lines are for
unknown names and the 27th line, `dth:5`, changes nothing. -/
theorem options_load_line_cap_witness :
    options_load (some file_27_pairs) (options_default sample_defines)
      = options_default sample_defines := by
  have h := (options_load_line_cap file_27_pairs (options_default sample_defines)).2.2.2.2
    (by decide)
  rw [← h]
  decide

set_option maxRecDepth 1000000 in
/-- C13 as stated, with text lines, fails on `file_27_lines`: its first text
line has no colon and is parsed together with the second, so `dth:5`, the 27th
text line, belongs to the 26th parsed line and is applied. Loading the whole
file sets `dth` to 5, loading only its first `NUM_OPTIONS + 1` text lines leaves
the compiled table, where `dth` is 50, and so the two tables differ. -/
theorem options_load_text_lines_differ :
    take_lines (NUM_OPTIONS + 2) file_27_lines = file_27_lines ∧
    take_lines (NUM_OPTIONS + 1) file_27_lines ++ "dth:5".toList ++ CRLF = file_27_lines ∧
    (options_load (some file_27_lines) (options_default sample_defines))[2]?
      = some { name := "dth".toList, ival := 5, max := 65535, sval := [] } ∧
    options_load (some (take_lines (NUM_OPTIONS + 1) file_27_lines))
      (options_default sample_defines) = options_default sample_defines ∧
    options_load (some file_27_lines) (options_default sample_defines)
      ≠ options_load (some (take_lines (NUM_OPTIONS + 1) file_27_lines))
        (options_default sample_defines) := by
  refine ⟨?_, ?_, ?_, ?_, ?_⟩ <;> decide

theorem find_option_loop_found (options : List OptionStruct) (name : List Char)
    (todo i : Nat) (k : Nat) (h : find_option_loop options name todo i = (k : Int)) :
    (options[k]?).map (·.name) = some name := by
  induction todo generalizing i with
  | zero => simp [find_option_loop] at h
  | succ todo ih =>
    rw [find_option_loop] at h
    split at h
    · rename_i hi
      have : i = k := by exact_mod_cast h
      rw [← this]
      exact hi
    · exact ih _ h

theorem apply_option_getElem? (options : List OptionStruct) (name sval : List Char) (i : Nat)
    (h : ∀ o, options[i]? = some o → o.name ≠ name) :
    (apply_option options name sval)[i]? = options[i]? := by
  unfold apply_option
  simp only []
  split
  · rfl
  · rename_i hneg
    have hk : find_option options name = ((find_option options name).toNat : Int) :=
      (Int.toNat_of_nonneg (by omega)).symm
    have hfound := find_option_loop_found options name NUM_OPTIONS 0 _ hk
    cases ho : options[(find_option options name).toNat]? with
    | none => rfl
    | some o =>
      rw [ho] at hfound
      have hname : o.name = name := by simpa using hfound
      have hne : (find_option options name).toNat ≠ i := by
        intro heq
        rw [heq] at ho
        exact h o ho hname
      simp only []
      split <;> exact List.getElem?_set_ne hne

theorem apply_option_names (options : List OptionStruct) (name sval : List Char) :
    (apply_option options name sval).map (·.name) = options.map (·.name) := by
  unfold apply_option
  simp only []
  split
  · rfl
  · cases ho : options[(find_option options name).toNat]? with
    | none => rfl
    | some o =>
      have hlt := (List.getElem?_eq_some_iff.1 ho).1
      have hset : ∀ o1 : OptionStruct, o1.name = o.name →
          (options.set (find_option options name).toNat o1).map (·.name)
            = options.map (·.name) := by
        intro o1 h1
        apply List.ext_getElem?
        intro j
        rw [List.map_set]
        by_cases hj : (find_option options name).toNat = j
        · subst hj
          rw [List.getElem?_set_self (by simpa using hlt), List.getElem?_map, ho, h1]
          rfl
        · rw [List.getElem?_set_ne hj]
      simp only []
      split
      · exact hset _ rfl
      · exact hset _ rfl

theorem foldl_apply_option_untouched (ps : List (List Char × List Char))
    (options : List OptionStruct) (i : Nat)
    (h : ∀ o, options[i]? = some o → ∀ p ∈ ps, o.name ≠ p.1) :
    (ps.foldl (fun c p => apply_option c p.1 p.2) options)[i]? = options[i]? := by
  induction ps generalizing options with
  | nil => rfl
  | cons p ps ih =>
    have h1 := apply_option_getElem? options p.1 p.2 i
      (fun o ho => h o ho p (List.mem_cons_self _ _))
    rw [List.foldl_cons, ih, h1]
    intro o ho q hq
    rw [h1] at ho
    exact h o ho q (List.mem_cons_of_mem _ hq)

theorem file_lines_append (pre suf : List Char) :
    ∃ l0 ls0, file_lines (pre ++ Char.ofNat 10 :: suf) = (l0 :: ls0) ++ file_lines suf := by
  induction pre with
  | nil => exact ⟨[], [], by simp [file_lines]⟩
  | cons c pre ih =>
    obtain ⟨l0, ls0, h⟩ := ih
    by_cases hc : c = Char.ofNat 10
    · exact ⟨[], l0 :: ls0, by simp [file_lines, hc, h]⟩
    · exact ⟨c :: l0, ls0, by simp [file_lines, hc, h]⟩

theorem file_lines_head (file : List Char) :
    ∃ ls, file_lines file = file.takeWhile (· ≠ Char.ofNat 10) :: ls := by
  induction file with
  | nil => exact ⟨[], rfl⟩
  | cons c cs ih =>
    obtain ⟨ls, h⟩ := ih
    by_cases hc : c = Char.ofNat 10
    · exact ⟨file_lines cs, by simp [file_lines, hc]⟩
    · exact ⟨ls, by simp [file_lines, hc, h]⟩

theorem readStringUntil_takeWhile (file : List Char)
    (h : Char.ofNat 10 ∉ (readStringUntil (Char.ofNat 58) file).1) :
    (readStringUntil (Char.ofNat 58) (file.takeWhile (· ≠ Char.ofNat 10))).1
      = (readStringUntil (Char.ofNat 58) file).1 := by
  induction file with
  | nil => rfl
  | cons c cs ih =>
    by_cases hc : c = Char.ofNat 58
    · subst hc
      have : (Char.ofNat 58 ≠ Char.ofNat 10) := by decide
      simp [readStringUntil, List.takeWhile, this]
    · simp only [readStringUntil, hc, if_false, List.mem_cons, not_or] at h
      have hc10 : c ≠ Char.ofNat 10 := fun h' => h.1 h'.symm
      have := ih h.2
      simp only [ne_eq, decide_not] at this
      simp [readStringUntil, List.takeWhile, hc, hc10, this]

theorem parsed_pairs_line_keys (k : Nat) (file : List Char) :
    ∀ p ∈ parsed_pairs k file, Char.ofNat 10 ∉ p.1 → p.1 ∈ line_keys file := by
  induction k generalizing file with
  | zero => intro p hp; simp [parsed_pairs] at hp
  | succ k ih =>
    intro p hp hlf
    rw [parsed_pairs] at hp
    split at hp
    · simp at hp
    · rcases List.mem_cons.1 hp with hp | hp
      · subst hp
        obtain ⟨ls, hls⟩ := file_lines_head file
        simp only [parse_pair] at hlf ⊢
        rw [line_keys, hls, List.map_cons, readStringUntil_takeWhile file hlf]
        exact List.mem_cons_self _ _
      · by_cases h2 : (parse_pair file).2.2 = []
        · rw [h2, parsed_pairs_nil] at hp
          simp at hp
        · obtain ⟨a, b, rest, ha, hb, hfile, hpp⟩ := parse_pair_split file h2
          rw [hpp] at hp
          have hin := ih rest p hp hlf
          obtain ⟨l0, ls0, happ⟩ := file_lines_append (a ++ Char.ofNat 58 :: b) rest
          have hfile2 : file = (a ++ Char.ofNat 58 :: b) ++ Char.ofNat 10 :: rest := by
            rw [hfile]; simp
          rw [line_keys, hfile2, happ, List.map_append]
          exact List.mem_append_right _ hin

theorem option_names_no_lf : ∀ n ∈ option_names, Char.ofNat 10 ∉ n := by decide

/-- C12: `options_load` changes nothing when the configuration file is absent;
for every file, every option whose name is not the key of a line of the file
keeps its entry, `ival` and `sval` included; a parsed pair whose name is not a
compiled option name changes nothing, and a file none of whose line keys is a
compiled option name leaves the table unchanged. -/
theorem options_load_untouched (options : List OptionStruct)
    (hn : options.map (·.name) = option_names) :
    options_load none options = options ∧
    (∀ file (i : Nat) o, options[i]? = some o → o.name ∉ line_keys file →
      (options_load (some file) options)[i]? = some o) ∧
    (∀ name sval, name ∉ option_names → apply_option options name sval = options) ∧
    (∀ file, (∀ key ∈ line_keys file, key ∉ option_names) →
      options_load (some file) options = options) := by
  have hkeep : ∀ file (i : Nat) o, options[i]? = some o → o.name ∉ line_keys file →
      (options_load (some file) options)[i]? = some o := by
    intro file i o ho hkey
    rw [options_load_eq_foldl, foldl_apply_option_untouched _ _ _ ?_, ho]
    intro o1 ho1 p hp heq
    rw [ho] at ho1
    cases ho1
    have hmem : o.name ∈ option_names := by
      rw [← hn]; exact List.mem_map_of_mem _ (List.getElem?_mem ho)
    apply hkey
    rw [heq]
    exact parsed_pairs_line_keys _ file p hp (by rw [← heq]; exact option_names_no_lf _ hmem)
  refine ⟨rfl, hkeep, ?_, ?_⟩
  · intro name sval hname
    have : find_option options name = -1 := find_option_absent options hn name hname
    simp [apply_option, this]
  · intro file hkeys
    apply List.ext_getElem?
    intro i
    cases ho : options[i]? with
    | none =>
      rw [options_load_eq_foldl, foldl_apply_option_untouched _ _ _ ?_, ho]
      intro o1 ho1
      rw [ho] at ho1
      cases ho1
    | some o =>
      apply hkeep file i o ho
      intro hmem
      apply hkeys _ hmem
      rw [← hn]
      exact List.mem_map_of_mem _ (List.getElem?_mem ho)

set_option maxRecDepth 1000000 in
/-- C12 on the file with the lines `dth:7` and `xyz:1`, loaded into the
compiled table: the entry of `vth` is kept, while `dth` becomes 7. -/
theorem options_load_untouched_witness :
    (options_load (some ("dth:7".toList ++ CRLF ++ "xyz:1".toList ++ CRLF))
      (options_default sample_defines))[3]?
      = some { name := "vth".toList, ival := 150, max := 65535, sval := [] } ∧
    (options_load (some ("dth:7".toList ++ CRLF ++ "xyz:1".toList ++ CRLF))
      (options_default sample_defines))[2]?
      = some { name := "dth".toList, ival := 7, max := 65535, sval := [] } :=
  ⟨(options_load_untouched (options_default sample_defines) rfl).2.1
      ("dth:7".toList ++ CRLF ++ "xyz:1".toList ++ CRLF) 3 _ rfl (by decide),
    by decide⟩

end OpenGarage
